import Mathlib

/-!
# Verification of the aris proof-editor source against its specification

This file gives a shallow embedding of the parts of the aris repository that
the specification talks about, and proves (or refutes) the specified
properties against that embedding.

Two layers of the repository are embedded:

* `src/aris/src/macros.rs` — the ASCII-macro to logic-symbol expansion
  (`TABLE`, `expand`).  This code is present in full and is embedded
  verbatim: Rust's `str::replace` (leftmost, non-overlapping replacement of
  every occurrence) is modelled on `List Char` by a fuel-indexed scan.

* `src/src/js_interop/js_ui.rs` — the proof-widget UI layer.  The functions
  present in that file (`may_remove_line`, `remove_line_if_allowed`,
  `calculate_lineinfo`, `toggle_dep_or_sdep`, the `update` dispatch and the
  `rule_feedback` closure) are embedded from the source.  The proof-store
  crate they call into (`PooledProof`, `add_premise`, `remove_line`,
  `can_reference_dep`, the xml serializer) is not part of the repository
  snapshot, so those operations are modelled from the specification, each
  marked `Modelled from the spec:` in its doc comment.

The file is organised as definitions first, then theorems.
-/

namespace Aris

/-! ## Definitions: macro expansion (`src/aris/src/macros.rs`)

Rust's `str::replace(pat, rep)` replaces every leftmost, non-overlapping
occurrence of `pat` by `rep`, scanning left to right.  UTF-8 is
self-synchronizing, so byte-level matching of one valid string inside
another coincides with `Char`-sequence matching; we model strings as their
`List Char` data.  The fuel argument is only a structural-recursion budget:
every scanning step consumes at least one character, so `s.length` fuel is
always enough.  (For an empty pattern Rust would insert `rep` at every
character boundary; `expand` only ever passes the table's macros, which are
all non-empty, and for a non-empty pattern the model below is exact.) -/
def replaceF (pat rep : List Char) : Nat → List Char → List Char
  | _, [] => []
  | 0, s => s
  | fuel + 1, c :: cs =>
    if pat ≠ [] ∧ pat.isPrefixOf (c :: cs) then
      rep ++ replaceF pat rep fuel (List.drop (pat.length - 1) cs)
    else
      c :: replaceF pat rep fuel cs

/-- Rust `str::replace` on `List Char`, with the fuel instantiated to the
length of the scanned string. -/
def replaceL (pat rep s : List Char) : List Char :=
  replaceF pat rep s.length s

/-- Rust `s.replace(pat, rep)` on `String`s (argument order as in the
source: receiver, pattern, replacement). -/
def rustReplace (s pat rep : String) : String :=
  ⟨replaceL pat.data rep.data s.data⟩

/-- The symbol/macro table of `src/aris/src/macros.rs`: each row is
`(symbol, macros)`, in the declared order. -/
def TABLE : List (String × List String) :=
  [("⊥", [".con", "_|_"]),
   ("⊤", [".taut", "^|^"]),
   ("¬", [".not", "~"]),
   ("∀", ["forall"]),
   ("∃", ["exists"]),
   ("∧", [".and", "&", "/\\"]),
   ("∨", [".or", "|", "\\/"]),
   ("↔", [".bicon", "<->"]),
   ("→", [".impl", "->"]),
   ("≡", [".equiv", "==="])]

/-- Function `aris::macros::expand`: fold the replacement of every macro by
its row's symbol over the table, rows in declared order and, within a row,
macros in declared order. -/
def expand (s : String) : String :=
  TABLE.foldl (fun s row => row.2.foldl (fun s m => rustReplace s m row.1) s) s

/-- The expansion as the specification's claim words it: an explicit chain
of `replace` calls, one per macro of `TABLE`, rows in declared order and
macros within a row in declared order, each replacing every occurrence of
the macro in the accumulated string by the row's logic symbol. -/
def expandSpec (s : String) : String :=
  let s := rustReplace s ".con" "⊥"
  let s := rustReplace s "_|_" "⊥"
  let s := rustReplace s ".taut" "⊤"
  let s := rustReplace s "^|^" "⊤"
  let s := rustReplace s ".not" "¬"
  let s := rustReplace s "~" "¬"
  let s := rustReplace s "forall" "∀"
  let s := rustReplace s "exists" "∃"
  let s := rustReplace s ".and" "∧"
  let s := rustReplace s "&" "∧"
  let s := rustReplace s "/\\" "∧"
  let s := rustReplace s ".or" "∨"
  let s := rustReplace s "|" "∨"
  let s := rustReplace s "\\/" "∨"
  let s := rustReplace s ".bicon" "↔"
  let s := rustReplace s "<->" "↔"
  let s := rustReplace s ".impl" "→"
  let s := rustReplace s "->" "→"
  let s := rustReplace s ".equiv" "≡"
  rustReplace s "===" "≡"

/-- Does `pat` occur as a contiguous substring of `s`? -/
def containsSub (pat : List Char) : List Char → Bool
  | [] => pat.isEmpty
  | c :: cs => pat.isPrefixOf (c :: cs) || containsSub pat cs

/-- One table entry applied to the accumulated string. -/
def stepRep (s : List Char) (p : List Char × List Char) : List Char :=
  replaceL p.1 p.2 s

/-- Table `TABLE` flattened into the 20 `(macro, symbol)` replacements
`expand` performs, in the order it performs them. -/
def flatTABLE : List (List Char × List Char) :=
  [(".con".data, "⊥".data), ("_|_".data, "⊥".data),
   (".taut".data, "⊤".data), ("^|^".data, "⊤".data),
   (".not".data, "¬".data), ("~".data, "¬".data),
   ("forall".data, "∀".data),
   ("exists".data, "∃".data),
   (".and".data, "∧".data), ("&".data, "∧".data), ("/\\".data, "∧".data),
   (".or".data, "∨".data), ("|".data, "∨".data), ("\\/".data, "∨".data),
   (".bicon".data, "↔".data), ("<->".data, "↔".data),
   (".impl".data, "→".data), ("->".data, "→".data),
   (".equiv".data, "≡".data), ("===".data, "≡".data)]

/-- Function `expand` at the `List Char` level. -/
def expandData (l : List Char) : List Char := flatTABLE.foldl stepRep l

/-- The flattening of a row list into `(macro, symbol)` replacement pairs. -/
def flatRows (rows : List (String × List String)) : List (List Char × List Char) :=
  rows.foldr (fun row acc => row.2.map (fun m => (m.data, row.1.data)) ++ acc) []

/-! ## Definitions: the proof document model

The data model of the Proof Store (spec §3), shallowly embedded.  The pool
(§2) owns every entity and issues stable, never-reused ids; since each
non-root subproof has exactly one parent at exactly one position (§3), the
embedding inlines every entity at its unique tree position and stores the
pool id it is referenced by.  The pool's freshness counter is kept alongside
the tree. -/

/-- Modelled from the spec: an Expression is an opaque immutable value
produced by the external parser (§3); the UI layer constructs expressions
only through the `var` builder. -/
inductive Expr where
  | var (name : String)
deriving DecidableEq

/-- Builder `expression_builders::var`. -/
def var (s : String) : Expr := .var s

/-- Modelled from the spec: the fixed enumerated rule set with its
privileged no-op/reiterate member `RuleM::Reit` (§3); every other rule is
carried opaquely by its name. -/
inductive Rule where
  | Reit
  | other (name : String)
deriving DecidableEq

/-- A reference to a premise or to a justified step (the source's
`PJRef<P>` coproduct). -/
inductive PJRef where
  | prem (n : Nat)
  | just (n : Nat)
deriving DecidableEq

/-- The source's `Coprod!(PJRef<P>, SubproofReference)`: anything a
justified step can cite (`inl` a premise or step, `inr` a subproof). -/
inductive DepRef where
  | inl (r : PJRef)
  | inr (n : Nat)
deriving DecidableEq

/-- The source's `Justification(conclusion, rule, deps, sdeps)` tuple:
conclusion expression, selected rule, line dependencies, subproof
dependencies. -/
structure Justification where
  concl : Expr
  rule : Rule
  deps : List PJRef
  sdeps : List Nat
deriving DecidableEq

/-- Modelled from the spec: a subproof's line sequence — each line is
either a justified step or a nested subproof, in order (§3).  A nested
subproof is inlined as its id, premise sequence and body. -/
inductive Lines where
  | nil
  | consJ (id : Nat) (j : Justification) (rest : Lines)
  | consS (id : Nat) (prems : List (Nat × Expr)) (body : Lines) (rest : Lines)
deriving DecidableEq

/-- A subproof: its premise sequence (with pool ids) followed by its line
sequence. -/
abbrev Subproof := List (Nat × Expr) × Lines

/-- Modelled from the spec: a Proof — the root subproof plus the pool's
monotone fresh-id counter (§2, §9). -/
structure Pf where
  top : Subproof
  next : Nat
deriving DecidableEq

/-- Number of direct lines (`lines().len()`). -/
def Lines.len : Lines → Nat
  | .nil => 0
  | .consJ _ _ r => r.len + 1
  | .consS _ _ _ r => r.len + 1

/-- Number of direct justified-step lines. -/
def Lines.justCount : Lines → Nat
  | .nil => 0
  | .consJ _ _ r => r.justCount + 1
  | .consS _ _ _ r => r.justCount

/-- Deep search for the justified step with id `n`. -/
def Lines.lookupJust : Lines → Nat → Option Justification
  | .nil, _ => none
  | .consJ i j r, n => if i = n then some j else r.lookupJust n
  | .consS _ _ b r, n =>
    match b.lookupJust n with
    | some j => some j
    | none => r.lookupJust n

/-- Deep search for the premise with id `n` among nested subproofs. -/
def Lines.lookupPremL : Lines → Nat → Option Expr
  | .nil, _ => none
  | .consJ _ _ r, n => r.lookupPremL n
  | .consS _ ps b r, n =>
    match ps.lookup n with
    | some e => some e
    | none =>
      match b.lookupPremL n with
      | some e => some e
      | none => r.lookupPremL n

/-- Deep search for the premise with id `n` in a subproof. -/
def subLookupPrem (sp : Subproof) (n : Nat) : Option Expr :=
  match sp.1.lookup n with
  | some e => some e
  | none => sp.2.lookupPremL n

/-- Modelled from the spec: `lookup_pj` — typed access to a premise or a
justified step; absent on a dangling reference (§4.2). -/
def lookupPj (pf : Pf) (r : PJRef) : Option (Sum Expr Justification) :=
  match r with
  | .prem n => (subLookupPrem pf.top n).map Sum.inl
  | .just n => (pf.top.2.lookupJust n).map Sum.inr

/-- Deep search for the nested subproof with id `n`. -/
def Lines.lookupSub : Lines → Nat → Option Subproof
  | .nil, _ => none
  | .consJ _ _ r, n => r.lookupSub n
  | .consS i ps b r, n =>
    if i = n then some (ps, b)
    else
      match b.lookupSub n with
      | some sp => some sp
      | none => r.lookupSub n

/-- Modelled from the spec: `lookup_subproof` — the root subproof carries
no reference, so only nested subproofs can be looked up (§4.2). -/
def lookupSubproof (pf : Pf) (n : Nat) : Option Subproof := pf.top.2.lookupSub n

/-- Is the referenced line a direct child of this subproof? -/
def Lines.hasDirectJust : Lines → Nat → Bool
  | .nil, _ => false
  | .consJ i _ r, n => i == n || r.hasDirectJust n
  | .consS _ _ _ r, n => r.hasDirectJust n

/-- Is the referenced line a direct child of this subproof? -/
def directlyContains (sp : Subproof) (r : PJRef) : Bool :=
  match r with
  | .prem n => sp.1.any (fun p => p.1 == n)
  | .just n => sp.2.hasDirectJust n

/-- Deep search for the subproof directly containing the given line. -/
def Lines.parentOf : Lines → PJRef → Option Nat
  | .nil, _ => none
  | .consJ _ _ r, x => r.parentOf x
  | .consS i ps b r, x =>
    if directlyContains (ps, b) x then some i
    else
      match b.parentOf x with
      | some m => some m
      | none => r.parentOf x

/-- Modelled from the spec: `parent_of_line` — the immediately enclosing
subproof of a line, `none` for root-level lines (§4.2). -/
def parentOfLine (pf : Pf) (r : PJRef) : Option Nat :=
  if directlyContains pf.top r then none
  else pf.top.2.parentOf r

/-- Remove the premise with id `n` from a premise sequence. -/
def erasePrem (ps : List (Nat × Expr)) (n : Nat) : List (Nat × Expr) :=
  match ps with
  | [] => []
  | p :: rest => if p.1 = n then rest else p :: erasePrem rest n

/-- Modelled from the spec: `remove_line` — removes a premise or justified
step from its owning subproof; the operation itself performs no validation
(§4.1). -/
def Lines.removeLine : Lines → PJRef → Lines
  | .nil, _ => .nil
  | .consJ i j r, x => if x = PJRef.just i then r else .consJ i j (r.removeLine x)
  | .consS i ps b r, x =>
    .consS i (match x with | .prem n => erasePrem ps n | .just _ => ps)
      (b.removeLine x) (r.removeLine x)

/-- Remove a line anywhere in the proof (`remove_line`, via the owning
subproof). -/
def removeLine (pf : Pf) (r : PJRef) : Pf :=
  { pf with
    top := ((match r with | .prem n => erasePrem pf.top.1 n | .just _ => pf.top.1),
            pf.top.2.removeLine r) }

/-- The subproof whose premise/line counts `may_remove_line` consults: the
source's `parent.and_then(lookup_subproof)`, falling back to the whole
proof for root-level lines. -/
def owningSub (pf : Pf) (r : PJRef) : Subproof :=
  match (parentOfLine pf r).bind (lookupSubproof pf) with
  | some sub => sub
  | none => pf.top

/-- Function `may_remove_line` (js_ui.rs): a premise may be removed only
when its owning subproof has more than one premise, a step only when its
owning subproof has more than one line.  `none` models the source's
`panic!` on a dangling reference. -/
def mayRemoveLine (pf : Pf) (r : PJRef) : Option Bool :=
  match lookupPj pf r with
  | none => none
  | some pj =>
    let sub := owningSub pf r
    some ((pj.isLeft && decide (sub.1.length > 1))
      || (!pj.isLeft && decide (sub.2.len > 1)))

/-- The per-widget UI data (`ProofUiData`): the derived line/depth map and
the per-line text buffers, both keyed by reference. -/
structure Pud where
  refToLineDepth : List (PJRef × (Nat × Nat))
  refToInput : List (PJRef × String)
deriving DecidableEq

/-- Function `remove_line_if_allowed` (js_ui.rs): drop the UI entries for
the line, then remove the line only when `may_remove_line` permits it;
`none` models the panic on a dangling reference.  (In the source the
nested case runs inside `with_mut_subproof` on the parent; the decision and
the effect are those modelled here.) -/
def removeLineIfAllowed (pf : Pf) (pud : Pud) (r : PJRef) : Option (Pf × Pud) :=
  let pud2 : Pud :=
    { refToLineDepth := pud.refToLineDepth.filter (fun e => decide (e.1 ≠ r)),
      refToInput := pud.refToInput.filter (fun e => decide (e.1 ≠ r)) }
  match mayRemoveLine pf r with
  | none => none
  | some true => some (removeLine pf r, pud2)
  | some false => some (pf, pud2)

/-- Modelled from the spec: `remove_subproof` — removes a nested subproof
and all its contents from its parent's line sequence (§4.1). -/
def Lines.removeSub : Lines → Nat → Lines
  | .nil, _ => .nil
  | .consJ i j r, n => .consJ i j (r.removeSub n)
  | .consS i ps b r, n =>
    if i = n then r else .consS i ps (b.removeSub n) (r.removeSub n)

/-- Remove a nested subproof anywhere in the proof. -/
def removeSubproof (pf : Pf) (n : Nat) : Pf :=
  { pf with top := (pf.top.1, pf.top.2.removeSub n) }

/-- The `Delete { what: Subproof }` branch of `ProofWidget::update`: look
up the parent of the cited line; remove that parent subproof when it
exists, otherwise do nothing (the source comments "shouldn't delete the
root subproof"). -/
def deleteSubproofAction (pf : Pf) (r : PJRef) : Pf :=
  match parentOfLine pf r with
  | some sr => removeSubproof pf sr
  | none => pf

/-- Modelled from the spec: `Proof::new` — a fresh proof over a fresh pool
with an empty root subproof (§3 lifecycle). -/
def pfNew : Pf := { top := ([], .nil), next := 0 }

/-- Modelled from the spec: `add_premise` — appends a premise to the root
subproof's premise sequence, allocating a fresh reference (§4.1). -/
def addPremise (pf : Pf) (e : Expr) : Pf × Nat :=
  ({ top := (pf.top.1 ++ [(pf.next, e)], pf.top.2), next := pf.next + 1 }, pf.next)

/-- Append a justified step at the end of a line sequence. -/
def Lines.pushJ : Lines → Nat → Justification → Lines
  | .nil, i, j => .consJ i j .nil
  | .consJ i0 j0 r, i, j => .consJ i0 j0 (r.pushJ i j)
  | .consS i0 ps b r, i, j => .consS i0 ps b (r.pushJ i j)

/-- Modelled from the spec: `add_step` — appends a justified step to the
root subproof's line sequence, allocating a fresh reference (§4.1). -/
def addStep (pf : Pf) (j : Justification) : Pf × Nat :=
  ({ top := (pf.top.1, pf.top.2.pushJ pf.next j), next := pf.next + 1 }, pf.next)

/-- `ProofWidget::create` with `data = None` (js_ui.rs): `P::new()`, then
one blank premise, then one default step using the no-op rule with empty
dependency lists. -/
def createEmptyProof : Pf :=
  (addStep (addPremise pfNew (var "")).1 ⟨var "", .Reit, [], []⟩).1

/-- Insertion of a new `BTreeSet` element into its strictly-sorted element
list. -/
def btreeInsert {α : Type} [LinearOrder α] (x : α) : List α → List α
  | [] => [x]
  | y :: ys =>
    if x < y then x :: y :: ys
    else if x = y then y :: ys
    else y :: btreeInsert x ys

/-- Removal of a `BTreeSet` element from its element list. -/
def btreeRemove {α : Type} [DecidableEq α] (x : α) : List α → List α
  | [] => []
  | y :: ys => if x = y then ys else y :: btreeRemove x ys

/-- Function `toggle_dep_or_sdep` (js_ui.rs): collect the dependency vector
into a `BTreeSet`, insert or remove `dep` according to `setTo`, and write
the set back (ascending iteration order). -/
def toggleDepOrSdep {α : Type} [LinearOrder α] (dep : α) (deps : List α)
    (setTo : Bool) : List α :=
  let depSet := deps.foldl (fun s d => btreeInsert d s) []
  if setTo then btreeInsert dep depSet else btreeRemove dep depSet

/-- Sort key giving `PJRef` a total order (the source's `Ord` on the
reference coproduct; the particular order is irrelevant to the claims). -/
def PJRef.key : PJRef → Nat
  | .prem n => 2 * n
  | .just n => 2 * n + 1

instance : LinearOrder PJRef :=
  LinearOrder.lift' PJRef.key (by
    intro a b h
    cases a <;> cases b <;> simp only [PJRef.key] at h
    · exact congrArg PJRef.prem (by omega)
    · exact absurd h (by omega)
    · exact absurd h (by omega)
    · exact congrArg PJRef.just (by omega))

/-- The `SetDependency` branch of `ProofWidget::update`, acting on one
justified step: toggle membership of `dep` in the step's line-dependency or
subproof-dependency vector; the other vector is untouched. -/
def setDependency (j : Justification) (setTo : Bool) (dep : DepRef) : Justification :=
  match dep with
  | .inl lr => { j with deps := toggleDepOrSdep lr j.deps setTo }
  | .inr sr => { j with sdeps := toggleDepOrSdep sr j.sdeps setTo }

/-- The outcome of the `rule_feedback` closure in `render_proof_line`. -/
inductive Feedback where
  | blank
  | parseError
  | correct
  | ruleError (diagnostic : String)
deriving DecidableEq

/-- The `rule_feedback` closure (js_ui.rs).  `parse` and `verifyLine` are
the external collaborators of spec §6, passed as parameters: `parse` is the
pure text parser and `verifyLine` the pure per-line rule checker, thunked
because the source only evaluates it inside `Option::map` after a
successful parse; its `Except.error` carries the human-readable diagnostic.
The closure only reads state and returns a value — it cannot mutate the
proof. -/
def ruleFeedback (parse : String → Option Expr)
    (verifyLine : Unit → Except String Unit) (refToInput : Option String) :
    Feedback :=
  match refToInput.bind (fun x => if x.length > 0 then some x else none) with
  | none => .blank
  | some rawLine =>
    match (parse rawLine).map (fun _ => verifyLine ()) with
    | none => .parseError
    | some (.ok _) => .correct
    | some (.error e) => .ruleError e

/-! ## Definitions: derived line numbering (`calculate_lineinfo`) -/

/-- `HashMap::insert`: overwrite the key's entry, or append the pair. -/
def insertA {K V : Type} [DecidableEq K] (m : List (K × V)) (k : K) (v : V) :
    List (K × V) :=
  match m with
  | [] => [(k, v)]
  | e :: rest => if e.1 = k then (k, v) :: rest else e :: insertA rest k v

/-- `calculate_lineinfo` (js_ui.rs), premise loop: insert each premise at
the running line number, incrementing it. -/
def calcPrems : List (Nat × Expr) → List (PJRef × (Nat × Nat)) → Nat → Nat →
    List (PJRef × (Nat × Nat)) × Nat
  | [], out, line, _ => (out, line)
  | p :: ps, out, line, depth =>
    calcPrems ps (insertA out (.prem p.1) (line, depth)) (line + 1) depth

/-- `calculate_lineinfo` (js_ui.rs), line loop: justified steps are
numbered at the current depth; a nested subproof is recursed into at depth
`+1` (premises first) and gets no number of its own. -/
def calcLines : Lines → List (PJRef × (Nat × Nat)) → Nat → Nat →
    List (PJRef × (Nat × Nat)) × Nat
  | .nil, out, line, _ => (out, line)
  | .consJ i _ r, out, line, depth =>
    calcLines r (insertA out (.just i) (line, depth)) (line + 1) depth
  | .consS _ ps b r, out, line, depth =>
    let (out2, line2) := calcPrems ps out line (depth + 1)
    let (out3, line3) := calcLines b out2 line2 (depth + 1)
    calcLines r out3 line3 depth

/-- `calculate_lineinfo` on a whole subproof: premises, then lines. -/
def calcSub (sp : Subproof) (out : List (PJRef × (Nat × Nat))) (line depth : Nat) :
    List (PJRef × (Nat × Nat)) × Nat :=
  let (out2, line2) := calcPrems sp.1 out line depth
  calcLines sp.2 out2 line2 depth

/-- The claim's view of a line sequence: premises and justified steps in
pre-order with their nesting depth (contents of a subproof at depth `+1`);
subproofs contribute no entry of their own. -/
def preorderL : Lines → Nat → List (PJRef × Nat)
  | .nil, _ => []
  | .consJ i _ r, d => (.just i, d) :: preorderL r d
  | .consS _ ps b r, d =>
    ps.map (fun p => (PJRef.prem p.1, d + 1)) ++ preorderL b (d + 1) ++ preorderL r d

/-- The claim's view of a subproof. -/
def preorderSub (sp : Subproof) (d : Nat) : List (PJRef × Nat) :=
  sp.1.map (fun p => (PJRef.prem p.1, d)) ++ preorderL sp.2 d

/-- Number a pre-order listing sequentially, starting at `line`. -/
def numberFrom : List (PJRef × Nat) → Nat → List (PJRef × (Nat × Nat))
  | [], _ => []
  | e :: rest, line => (e.1, (line, e.2)) :: numberFrom rest (line + 1)

/-! ## Definitions: the widget update dispatch -/

/-- The mutable state of a `ProofWidget` (fields the dispatch touches). -/
structure WidgetState where
  prf : Pf
  pud : Pud
  selectedLine : Option PJRef
deriving DecidableEq

/-- The source's `LAKItem`. -/
inductive LAKItem where
  | line
  | subproof
deriving DecidableEq

/-- The source's `LineActionKind`. -/
inductive LineActionKind where
  | insert (what : LAKItem) (after : Bool) (relativeTo : LAKItem)
  | delete (what : LAKItem)
  | setRule (rule : Rule)
  | select
  | setDependency (setTo : Bool) (dep : DepRef)
deriving DecidableEq

/-- The source's `ProofWidgetMsg` (without the opaque `CallOnProof`
callback, which only reads the proof). -/
inductive ProofWidgetMsg where
  | nop
  | lineChanged (r : PJRef) (input : String)
  | lineAction (k : LineActionKind) (r : PJRef)
deriving DecidableEq

/-- Insert a new premise immediately before/after premise `relTo` in a
premise sequence (no effect when `relTo` is not there). -/
def insertPremRel (ps : List (Nat × Expr)) (relTo : Nat) (afterB : Bool)
    (newId : Nat) (e : Expr) : List (Nat × Expr) :=
  match ps with
  | [] => []
  | p :: rest =>
    if p.1 = relTo then
      if afterB then p :: (newId, e) :: rest else (newId, e) :: p :: rest
    else p :: insertPremRel rest relTo afterB newId e

/-- Insert a new premise relative to premise `relTo` anywhere among nested
subproofs. -/
def Lines.insPrem : Lines → Nat → Bool → Nat → Expr → Lines
  | .nil, _, _, _, _ => .nil
  | .consJ i j r, relTo, afterB, ni, e => .consJ i j (r.insPrem relTo afterB ni e)
  | .consS i ps b r, relTo, afterB, ni, e =>
    .consS i (insertPremRel ps relTo afterB ni e) (b.insPrem relTo afterB ni e)
      (r.insPrem relTo afterB ni e)

/-- Modelled from the spec: `add_premise_relative` — insert a premise
immediately before/after an existing premise of the same subproof,
allocating a fresh reference (§4.1). -/
def addPremiseRelative (pf : Pf) (e : Expr) (relTo : Nat) (afterB : Bool) :
    Pf × Nat :=
  ({ top := (insertPremRel pf.top.1 relTo afterB pf.next e,
             pf.top.2.insPrem relTo afterB pf.next e),
     next := pf.next + 1 }, pf.next)

/-- Insert a new justified step immediately before/after step `relTo`. -/
def Lines.insStep : Lines → Nat → Bool → Nat → Justification → Lines
  | .nil, _, _, _, _ => .nil
  | .consJ i j r, relTo, afterB, ni, nj =>
    if i = relTo then
      if afterB then .consJ i j (.consJ ni nj r) else .consJ ni nj (.consJ i j r)
    else .consJ i j (r.insStep relTo afterB ni nj)
  | .consS i ps b r, relTo, afterB, ni, nj =>
    .consS i ps (b.insStep relTo afterB ni nj) (r.insStep relTo afterB ni nj)

/-- Modelled from the spec: `add_step_relative` — insert a justified step
immediately before/after an existing line of the same subproof, allocating
a fresh reference (§4.1). -/
def addStepRelative (pf : Pf) (j : Justification) (relTo : Nat) (afterB : Bool) :
    Pf × Nat :=
  ({ top := (pf.top.1, pf.top.2.insStep relTo afterB pf.next j),
     next := pf.next + 1 }, pf.next)

/-- Insert a new nested subproof immediately before/after step `relTo`. -/
def Lines.insSub : Lines → Nat → Bool → Nat → List (Nat × Expr) → Lines → Lines
  | .nil, _, _, _, _, _ => .nil
  | .consJ i j r, relTo, afterB, ni, nps, nb =>
    if i = relTo then
      if afterB then .consJ i j (.consS ni nps nb r)
      else .consS ni nps nb (.consJ i j r)
    else .consJ i j (r.insSub relTo afterB ni nps nb)
  | .consS i ps b r, relTo, afterB, ni, nps, nb =>
    .consS i ps (b.insSub relTo afterB ni nps nb) (r.insSub relTo afterB ni nps nb)

/-- Modelled from the spec: `add_subproof_relative` followed by the
`with_mut_subproof` population step of the Insert branch — a new subproof
adjacent to step `relTo`, populated with one blank premise and one default
step (§4.1 and the source's Insert arm).  Returns the proof and the new
premise's reference (the line the widget selects). -/
def addSubproofRelativeFilled (pf : Pf) (relTo : Nat) (afterB : Bool) :
    Pf × Nat :=
  ({ top := (pf.top.1,
      pf.top.2.insSub relTo afterB pf.next
        [(pf.next + 1, var "__js_ui_blank_premise")]
        (.consJ (pf.next + 2) ⟨var "__js_ui_blank_step", .Reit, [], []⟩ .nil)),
     next := pf.next + 3 }, pf.next + 1)

/-- Modelled from the spec: `with_mut_premise` — scoped mutation of one
premise's expression (§4.1). -/
def Lines.mapPremAt : Lines → Nat → (Expr → Expr) → Lines
  | .nil, _, _ => .nil
  | .consJ i j r, n, f => .consJ i j (r.mapPremAt n f)
  | .consS i ps b r, n, f =>
    .consS i (ps.map (fun p => if p.1 = n then (p.1, f p.2) else p))
      (b.mapPremAt n f) (r.mapPremAt n f)

/-- Scoped mutation of one premise anywhere in the proof. -/
def withMutPremise (pf : Pf) (n : Nat) (f : Expr → Expr) : Pf :=
  { pf with
    top := (pf.top.1.map (fun p => if p.1 = n then (p.1, f p.2) else p),
            pf.top.2.mapPremAt n f) }

/-- Modelled from the spec: `with_mut_step` — scoped mutation of one
justified step (§4.1). -/
def Lines.mapStepAt : Lines → Nat → (Justification → Justification) → Lines
  | .nil, _, _ => .nil
  | .consJ i j r, n, f => .consJ i (if i = n then f j else j) (r.mapStepAt n f)
  | .consS i ps b r, n, f => .consS i ps (b.mapStepAt n f) (r.mapStepAt n f)

/-- Scoped mutation of one justified step anywhere in the proof. -/
def withMutStep (pf : Pf) (n : Nat) (f : Justification → Justification) : Pf :=
  { pf with top := (pf.top.1, pf.top.2.mapStepAt n f) }

/-- The `if ret { calculate_lineinfo(...) }` tail of `ProofWidget::update`:
rerun `calculate_lineinfo` into the existing map. -/
def recompute (st : WidgetState) : WidgetState :=
  { st with
    pud := { st.pud with
      refToLineDepth := (calcSub st.prf.top st.pud.refToLineDepth 1 0).1 } }

/-- `ProofWidget::update` (js_ui.rs) over the proof-relevant messages.
`parse` is the external parser (§6).  Branches mirror the source arms:
`Nop` leaves the state alone; every other arm sets `ret` and therefore ends
in `recompute`; `Insert` relative to a subproof is the source's early
`return` (no change); inserting a subproof relative to a premise models the
source's `.unwrap()` panic as `none`, as does deleting a dangling line. -/
def widgetUpdate (parse : String → Option Expr) (st : WidgetState)
    (msg : ProofWidgetMsg) : Option WidgetState :=
  match msg with
  | .nop => some st
  | .lineChanged r input =>
    let pud2 := { st.pud with refToInput := insertA st.pud.refToInput r input }
    let prf2 :=
      match parse input with
      | some e =>
        match r with
        | .prem pr => withMutPremise st.prf pr (fun _ => e)
        | .just jr => withMutStep st.prf jr (fun j => { j with concl := e })
      | none => st.prf
    some (recompute { st with prf := prf2, pud := pud2 })
  | .lineAction (.insert what afterB relativeTo) origRef =>
    match relativeTo with
    | .subproof => some st
    | .line =>
      match what with
      | .line =>
        match origRef with
        | .prem pr =>
          let res := addPremiseRelative st.prf (var "__js_ui_blank_premise") pr afterB
          some (recompute { st with prf := res.1, selectedLine := some (.prem res.2) })
        | .just jr =>
          let res := addStepRelative st.prf
            ⟨var "__js_ui_blank_step", .Reit, [], []⟩ jr afterB
          some (recompute { st with prf := res.1, selectedLine := some (.just res.2) })
      | .subproof =>
        match origRef with
        | .prem _ => none
        | .just jr =>
          let res := addSubproofRelativeFilled st.prf jr afterB
          some (recompute { st with prf := res.1, selectedLine := some (.prem res.2) })
  | .lineAction (.delete .line) r =>
    match removeLineIfAllowed st.prf st.pud r with
    | none => none
    | some res => some (recompute { st with prf := res.1, pud := res.2 })
  | .lineAction (.delete .subproof) r =>
    some (recompute { st with prf := deleteSubproofAction st.prf r })
  | .lineAction (.setRule rule) r =>
    let prf2 :=
      match r with
      | .just jr => withMutStep st.prf jr (fun j => { j with rule := rule })
      | .prem _ => st.prf
    some (recompute { st with prf := prf2, selectedLine := some r })
  | .lineAction .select r => some (recompute { st with selectedLine := some r })
  | .lineAction (.setDependency setTo dep) r =>
    let prf2 :=
      match r with
      | .just jr => withMutStep st.prf jr (fun j => setDependency j setTo dep)
      | .prem _ => st.prf
    some (recompute { st with prf := prf2 })

/-! ## Definitions: the dependency validator

The proof-store's `can_reference_dep` is not part of the snapshot; it is
modelled from spec §4.3: `B` is a valid dependency of `A` iff `B` is
reachable by walking up the chain of subproofs enclosing `A` and, within
each such subproof (including `A`'s own), `B` precedes `A`'s own line in
document order (premises precede all lines; a whole-subproof citation is
tested at the subproof's position). -/

/-- The premise references of a premise sequence, as citable entries. -/
def premRefs (ps : List (Nat × Expr)) : List DepRef :=
  ps.map (fun p => DepRef.inl (PJRef.prem p.1))

/-- The direct entries of a line sequence, as citable references in
document order. -/
def entriesL : Lines → List DepRef
  | .nil => []
  | .consJ i _ r => DepRef.inl (PJRef.just i) :: entriesL r
  | .consS i _ _ r => DepRef.inr i :: entriesL r

/-- The direct entries of a subproof: premises, then lines. -/
def entriesSub (sp : Subproof) : List DepRef :=
  premRefs sp.1 ++ entriesL sp.2

/-- The direct nested-subproof entries of a line sequence. -/
def subEntries : Lines → List (Nat × Subproof)
  | .nil => []
  | .consJ _ _ r => subEntries r
  | .consS i ps b r => (i, (ps, b)) :: subEntries r

/-- All nested subproofs at any depth. -/
def deepSubs : Lines → List (Nat × Subproof)
  | .nil => []
  | .consJ _ _ r => deepSubs r
  | .consS i ps b r => (i, (ps, b)) :: (deepSubs b ++ deepSubs r)

/-- Does the subtree contain the justified step `a` at any depth? -/
def Lines.hasJustDeep : Lines → Nat → Bool
  | .nil, _ => false
  | .consJ i _ r, a => i == a || r.hasJustDeep a
  | .consS _ _ b r, a => b.hasJustDeep a || r.hasJustDeep a

/-- Every reference a line sequence stores, in document order. -/
def allRefsL : Lines → List DepRef
  | .nil => []
  | .consJ i _ r => DepRef.inl (PJRef.just i) :: allRefsL r
  | .consS i ps b r =>
    DepRef.inr i :: (premRefs ps ++ allRefsL b ++ allRefsL r)

/-- Every reference a subproof stores. -/
def allRefs (sp : Subproof) : List DepRef :=
  premRefs sp.1 ++ allRefsL sp.2

/-- Well-formedness: the pool never reuses identifiers (§3), so every
reference occurs at most once in the tree. -/
def WFrefs (pf : Pf) : Prop := (allRefs pf.top).Nodup

/-- Modelled from the spec: the scope walk of the Dependency Validator
(§4.3).  `scopeL ls a` walks the line sequence looking for the justified
step `a`; every entry passed on the way is citable, and entering a nested
subproof makes its premises citable; `none` when `a` is not in `ls`. -/
def scopeL : Lines → Nat → Option (List DepRef)
  | .nil, _ => none
  | .consJ i _ r, a =>
    if i = a then some []
    else (scopeL r a).map (fun l => DepRef.inl (PJRef.just i) :: l)
  | .consS i ps b r, a =>
    match scopeL b a with
    | some l => some (premRefs ps ++ l)
    | none => (scopeL r a).map (fun l => DepRef.inr i :: l)

/-- The scope of the justified step `a` within a subproof: the subproof's
premises plus everything the walk passes. -/
def scopeSub (sp : Subproof) (a : Nat) : Option (List DepRef) :=
  (scopeL sp.2 a).map (fun l => premRefs sp.1 ++ l)

/-- Modelled from the spec: `can_reference_dep` — may the justified step
`a` cite `b` (§4.3)? -/
def canReferenceDep (pf : Pf) (a : Nat) (b : DepRef) : Bool :=
  match scopeSub pf.top a with
  | some l => decide (b ∈ l)
  | none => false

/-- The claim's "chain of subproofs enclosing A", recorded top-down:
`DescentTo sp a p` holds when the walk down from `sp` reaches the justified
step `a` by entering, in order, the nested subproofs listed in `p` (each a
direct line of the previous level), `a` being a direct step of the last. -/
inductive DescentTo : Subproof → Nat → List (Nat × Subproof) → Prop where
  | here (sp : Subproof) (a : Nat) :
      DepRef.inl (PJRef.just a) ∈ entriesL sp.2 → DescentTo sp a []
  | there (sp : Subproof) (a i : Nat) (s : Subproof) (p : List (Nat × Subproof)) :
      (i, s) ∈ subEntries sp.2 → DescentTo s a p → DescentTo sp a ((i, s) :: p)

/-- Scanning a list of entries in document order: does `b` occur strictly
before the first occurrence of `cut` (which must occur)? -/
def precedesList (b cut : DepRef) : List DepRef → Bool
  | [] => false
  | x :: rest =>
    if x = cut then false
    else if x = b then decide (cut ∈ rest)
    else precedesList b cut rest

/-- The claim's acceptance condition along a descent: at one of the levels
the walk passes through, `b` precedes (in that level's document order) the
entry through which the walk continues — `A`'s own line at the last level,
the nested subproof's position higher up. -/
def citesAlong (b : DepRef) : Subproof → List (Nat × Subproof) → Nat → Prop
  | sp, [], a => precedesList b (DepRef.inl (PJRef.just a)) (entriesSub sp) = true
  | sp, (i, s) :: p, a =>
    precedesList b (DepRef.inr i) (entriesSub sp) = true ∨ citesAlong b s p a

/-! ## Definitions: serializer and deserializer

The xml serializer (`proofs::xml_interop`) is not part of the snapshot; it
is modelled from spec §4.4/§6: the persisted document carries
`{author, hash, goals}` metadata and the tree — ordered premises, then
lines tagged justification-or-subproof, each justification carrying its
rule identity, conclusion and dependency reference lists.  References are
written as document numbers (numbered lines for premises/steps, a separate
pre-order numbering for subproofs, both 1-based); the deserializer rebuilds
the tree in a fresh pool, allocating ids in traversal order, and fails on a
dependency number citing nothing. -/

/-- Modelled from the spec: document metadata (§6). -/
structure ProofMetaData where
  author : Option String
  hash : Option String
  goals : List Expr
deriving DecidableEq

/-- Modelled from the spec: the persisted tree (§6). -/
inductive DocLines where
  | nil
  | consJ (concl : Expr) (rule : Rule) (deps : List Nat) (sdeps : List Nat)
      (rest : DocLines)
  | consS (prems : List Expr) (body : DocLines) (rest : DocLines)
deriving DecidableEq

/-- Modelled from the spec: a persisted document (§6). -/
structure Doc where
  meta : ProofMetaData
  prems : List Expr
  lines : DocLines
deriving DecidableEq

/-- Premises and justified steps in pre-order: the document's line-number
order. -/
def pjOrderL : Lines → List PJRef
  | .nil => []
  | .consJ i _ r => .just i :: pjOrderL r
  | .consS _ ps b r => ps.map (fun p => PJRef.prem p.1) ++ pjOrderL b ++ pjOrderL r

/-- Premises and justified steps of a subproof in pre-order. -/
def pjOrder (sp : Subproof) : List PJRef :=
  sp.1.map (fun p => PJRef.prem p.1) ++ pjOrderL sp.2

/-- Nested subproofs in pre-order: the document's subproof-number order. -/
def subOrderL : Lines → List Nat
  | .nil => []
  | .consJ _ _ r => subOrderL r
  | .consS i _ b r => i :: (subOrderL b ++ subOrderL r)

/-- Modelled from the spec: the serializer's tree emission — each
dependency written as the cited entity's 1-based document number (§4.4). -/
def serializeLines (pj : List PJRef) (subs : List Nat) : Lines → DocLines
  | .nil => .nil
  | .consJ _ j r =>
    .consJ j.concl j.rule (j.deps.map (fun d => pj.indexOf d + 1))
      (j.sdeps.map (fun d => subs.indexOf d + 1)) (serializeLines pj subs r)
  | .consS _ ps b r =>
    .consS (ps.map Prod.snd) (serializeLines pj subs b) (serializeLines pj subs r)

/-- Modelled from the spec: `xml_from_proof_and_metadata_with_hash` — a
full snapshot of the proof together with its metadata (§4.4). -/
def serialize (pf : Pf) (meta : ProofMetaData) : Doc :=
  { meta := meta,
    prems := pf.top.1.map Prod.snd,
    lines := serializeLines (pjOrder pf.top) (subOrderL pf.top.2) pf.top.2 }

/-- The kinds of the document's numbered lines in document order
(`true` = premise, `false` = justified step). -/
def docPjKindsL : DocLines → List Bool
  | .nil => []
  | .consJ _ _ _ _ r => false :: docPjKindsL r
  | .consS ps b r => ps.map (fun _ => true) ++ docPjKindsL b ++ docPjKindsL r

/-- The kinds of all numbered lines of a document. -/
def docPjKinds (d : Doc) : List Bool :=
  d.prems.map (fun _ => true) ++ docPjKindsL d.lines

/-- Number of subproofs of a persisted tree. -/
def docSubCountL : DocLines → Nat
  | .nil => 0
  | .consJ _ _ _ _ r => docSubCountL r
  | .consS _ b r => docSubCountL b + docSubCountL r + 1

/-- Resolve every element or fail. -/
def mapOpt {A B : Type} (f : A → Option B) : List A → Option (List B)
  | [] => some []
  | a :: l =>
    match f a, mapOpt f l with
    | some b, some l2 => some (b :: l2)
    | _, _ => none

/-- Resolve a written line-dependency number against the document: line
`k` (1-based) becomes the `k-1`-th freshly allocated premise or step;
fails on 0 or out of range (a dependency citing nothing, §4.4). -/
def transDep (kinds : List Bool) (k : Nat) : Option PJRef :=
  match k with
  | 0 => none
  | k2 + 1 =>
    match kinds.get? k2 with
    | some true => some (.prem k2)
    | some false => some (.just k2)
    | none => none

/-- Resolve a written subproof-dependency number; subproof `k` (1-based)
gets the fresh id `npj + (k-1)`. -/
def transSdep (npj nsub k : Nat) : Option Nat :=
  match k with
  | 0 => none
  | k2 + 1 => if k2 < nsub then some (npj + k2) else none

/-- Allocate consecutive fresh ids to a premise sequence. -/
def numberPrems : List Expr → Nat → List (Nat × Expr)
  | [], _ => []
  | e :: rest, n => (n, e) :: numberPrems rest (n + 1)

/-- Modelled from the spec: the deserializer's tree rebuild — fresh ids in
traversal order (`pl` counts numbered lines, `sl` counts subproofs), each
written dependency resolved, failing on a dangling number (§4.4). -/
def deserializeLines (kinds : List Bool) (npj nsub : Nat) :
    DocLines → Nat → Nat → Option (Lines × Nat × Nat)
  | .nil, pl, sl => some (.nil, pl, sl)
  | .consJ e rule deps sdeps r, pl, sl =>
    match mapOpt (transDep kinds) deps with
    | none => none
    | some deps2 =>
      match mapOpt (transSdep npj nsub) sdeps with
      | none => none
      | some sdeps2 =>
        match deserializeLines kinds npj nsub r (pl + 1) sl with
        | none => none
        | some res =>
          some (.consJ pl ⟨e, rule, deps2, sdeps2⟩ res.1, res.2.1, res.2.2)
  | .consS ps b r, pl, sl =>
    match deserializeLines kinds npj nsub b (pl + ps.length) (sl + 1) with
    | none => none
    | some res =>
      match deserializeLines kinds npj nsub r res.2.1 res.2.2 with
      | none => none
      | some res2 =>
        some (.consS (npj + sl) (numberPrems ps pl) res.1 res2.1, res2.2.1, res2.2.2)

/-- Modelled from the spec: `proof_from_xml` — rebuild a proof and its
metadata from a persisted document, or fail with no partial document
(§4.4). -/
def deserialize (d : Doc) : Option (Pf × ProofMetaData) :=
  let kinds := docPjKinds d
  let npj := kinds.length
  let nsub := docSubCountL d.lines
  match deserializeLines kinds npj nsub d.lines d.prems.length 0 with
  | none => none
  | some res =>
    some ({ top := (numberPrems d.prems 0, res.1), next := npj + nsub }, d.meta)

/-- Rename a premise/step reference. -/
def renamePJ (fp fj : Nat → Nat) : PJRef → PJRef
  | .prem n => .prem (fp n)
  | .just n => .just (fj n)

/-- Rename every reference of a line sequence: premise ids by `fp`, step
ids by `fj`, subproof ids by `fs`, dependencies accordingly.  The renamed
tree has the same shape, the same rule on every step, the same conclusion
on every line, and the image dependency sets. -/
def renameLines (fp fj fs : Nat → Nat) : Lines → Lines
  | .nil => .nil
  | .consJ i j r =>
    .consJ (fj i) ⟨j.concl, j.rule, j.deps.map (renamePJ fp fj), j.sdeps.map fs⟩
      (renameLines fp fj fs r)
  | .consS i ps b r =>
    .consS (fs i) (ps.map (fun p => (fp p.1, p.2)))
      (renameLines fp fj fs b) (renameLines fp fj fs r)

/-- Rename every reference of a subproof. -/
def renameSub (fp fj fs : Nat → Nat) (sp : Subproof) : Subproof :=
  (sp.1.map (fun p => (fp p.1, p.2)), renameLines fp fj fs sp.2)

/-- Are all dependencies cited in the tree references that the tree
defines? -/
def Lines.depsIn : Lines → List PJRef → List Nat → Bool
  | .nil, _, _ => true
  | .consJ _ j r, pj, subs =>
    j.deps.all (fun d => pj.contains d) && j.sdeps.all (fun d => subs.contains d)
      && r.depsIn pj subs
  | .consS _ _ b r, pj, subs => b.depsIn pj subs && r.depsIn pj subs

/-- The kind of a premise/step reference (`true` = premise). -/
def PJRef.isPrem : PJRef → Bool
  | .prem _ => true
  | .just _ => false

/-- The premise renaming the round trip induces: each premise id becomes
its 0-based document position. -/
def fpIx (pj : List PJRef) (n : Nat) : Nat := pj.indexOf (PJRef.prem n)

/-- The step renaming the round trip induces. -/
def fjIx (pj : List PJRef) (n : Nat) : Nat := pj.indexOf (PJRef.just n)

/-- The subproof renaming the round trip induces: fresh subproof ids start
after the numbered lines. -/
def fsIx (npj : Nat) (subs : List Nat) (n : Nat) : Nat := npj + subs.indexOf n

/-- A concrete metadata record. -/
def metaW : ProofMetaData := { author := some "w", hash := none, goals := [] }

/-! ## Definitions: concrete instances used by counterexamples and
witnesses -/

/-- A proof whose root subproof has exactly one justified step but two
lines: the step (id 1) and a nested subproof (id 2). -/
def pfC1 : Pf :=
  { top := ([(0, var "A")],
      .consJ 1 ⟨var "B", .Reit, [], []⟩
        (.consS 2 [(3, var "C")] (.consJ 4 ⟨var "D", .Reit, [], []⟩ .nil) .nil)),
    next := 5 }

/-- What `pfC1` becomes once its only justified step is removed. -/
def pfC1removed : Pf :=
  { top := ([(0, var "A")],
      .consS 2 [(3, var "C")] (.consJ 4 ⟨var "D", .Reit, [], []⟩ .nil) .nil),
    next := 5 }

/-- The smallest proof: one premise, one step, both at root level. -/
def pfW1 : Pf :=
  { top := ([(0, var "p")], .consJ 1 ⟨var "q", .Reit, [], []⟩ .nil), next := 2 }

/-- A nested proof with dependencies: root premise 0, root step 1 citing
premise 0, a subproof 2 with premise 3 and step 4 citing premises 0 and 3,
and a final root step 5 citing step 1 and discharging subproof 2. -/
def pfN : Pf :=
  { top := ([(0, var "P")],
      .consJ 1 ⟨var "Q", .Reit, [.prem 0], []⟩
        (.consS 2 [(3, var "R")]
          (.consJ 4 ⟨var "S", .Reit, [.prem 0, .prem 3], []⟩ .nil)
          (.consJ 5 ⟨var "T", .other "ConditionalProof", [.just 1], [2]⟩ .nil))),
    next := 6 }

/-- An empty UI-data record. -/
def pudEmpty : Pud := ⟨[], []⟩

/-- A parser stub accepting exactly the text `"P"`. -/
def parseW (s : String) : Option Expr := if s = "P" then some (var "P") else none

/-! ## Theorems: macro expansion -/

/-- C9: `expand` is exactly the fold over the ten rows of `TABLE` in their
declared order, replacing each row's macros in order by the row's logic
symbol, and on the documentation example it produces `"⊥ → (⊤ ↔ ¬P)"`. -/
theorem c9_expand_eq_table_fold :
    (∀ s : String, expand s = expandSpec s) ∧
    expand "_|_ -> (^|^ .bicon ~P)" = "⊥ → (⊤ ↔ ¬P)" :=
  ⟨fun _ => rfl, by decide⟩

theorem replaceF_nil (pat rep : List Char) (fuel : Nat) :
    replaceF pat rep fuel [] = [] := by
  cases fuel <;> rfl

theorem containsSub_cons_false {q : List Char} {c : Char} {cs : List Char}
    (h : containsSub q (c :: cs) = false) :
    q.isPrefixOf (c :: cs) = false ∧ containsSub q cs = false := by
  simpa [containsSub, Bool.or_eq_false_iff] using h

/-- A prefix of the replaced string whose characters avoid the replacement
is already a prefix of the original string. -/
theorem replaceF_prefix_reflect (pat rep : List Char) (hrep : rep ≠ []) :
    ∀ (fuel : Nat) (s q : List Char), s.length ≤ fuel →
      (∀ a ∈ q, a ∉ rep) → q.isPrefixOf (replaceF pat rep fuel s) = true →
      q.isPrefixOf s = true := by
  intro fuel
  induction fuel with
  | zero =>
    intro s q hle hq hpre
    have hs : s = [] := List.eq_nil_of_length_eq_zero (Nat.le_zero.mp hle)
    subst hs
    simpa [replaceF_nil] using hpre
  | succ fuel ih =>
    intro s q hle hq hpre
    cases s with
    | nil => simpa [replaceF_nil] using hpre
    | cons c cs =>
      simp only [replaceF] at hpre
      by_cases hm : pat ≠ [] ∧ pat.isPrefixOf (c :: cs)
      · rw [if_pos hm] at hpre
        cases q with
        | nil => rfl
        | cons a q2 =>
          obtain ⟨b, rep2, rfl⟩ : ∃ b rep2, rep = b :: rep2 := by
            cases rep with
            | nil => exact absurd rfl hrep
            | cons b rep2 => exact ⟨b, rep2, rfl⟩
          simp only [List.cons_append, List.isPrefixOf, Bool.and_eq_true,
            beq_iff_eq] at hpre
          exact absurd (hpre.1 ▸ List.mem_cons_self b rep2)
            (hq a (List.mem_cons_self a q2))
      · rw [if_neg hm] at hpre
        cases q with
        | nil => rfl
        | cons a q2 =>
          simp only [List.isPrefixOf, Bool.and_eq_true, beq_iff_eq] at hpre ⊢
          refine ⟨hpre.1, ih cs q2 ?_ ?_ hpre.2⟩
          · exact Nat.le_of_succ_le_succ (by simpa using hle)
          · intro a2 ha2
            exact hq a2 (List.mem_cons_of_mem _ ha2)

/-- Prepending a block whose characters avoid `q` creates no occurrence of
`q`. -/
theorem containsSub_append_left (q R : List Char) (hq : q ≠ []) :
    ∀ pre : List Char, (∀ a ∈ q, a ∉ pre) → containsSub q R = false →
      containsSub q (pre ++ R) = false := by
  intro pre
  induction pre with
  | nil =>
    intro _ h
    simpa using h
  | cons b pre2 ih =>
    intro hdisj hR
    simp only [List.cons_append, containsSub, Bool.or_eq_false_iff]
    constructor
    · cases q with
      | nil => exact absurd rfl hq
      | cons a q2 =>
        cases hab : a == b with
        | false => simp [List.isPrefixOf, hab]
        | true =>
          exfalso
          have hab2 : a = b := by simpa using hab
          exact hdisj a (List.mem_cons_self a q2)
            (hab2 ▸ List.mem_cons_self b pre2)
    · exact ih (fun a ha hmem => hdisj a ha (List.mem_cons_of_mem _ hmem)) hR

/-- Dropping a prefix of a string without occurrences of `q` leaves no
occurrence. -/
theorem containsSub_drop (q : List Char) :
    ∀ (n : Nat) (s : List Char), containsSub q s = false →
      containsSub q (s.drop n) = false := by
  intro n
  induction n with
  | zero =>
    intro s h
    simpa using h
  | succ n ih =>
    intro s h
    cases s with
    | nil => simpa using h
    | cons c cs => exact ih cs (containsSub_cons_false h).2

/-- Replacing `pat` by `rep` creates no new occurrence of a non-empty `q`
whose characters avoid `rep`. -/
theorem replaceF_no_new_occ (pat rep q : List Char) (hrep : rep ≠ [])
    (hq : q ≠ []) (hdisj : ∀ a ∈ q, a ∉ rep) :
    ∀ (fuel : Nat) (s : List Char), s.length ≤ fuel →
      containsSub q s = false →
      containsSub q (replaceF pat rep fuel s) = false := by
  intro fuel
  induction fuel with
  | zero =>
    intro s hle h
    have hs : s = [] := List.eq_nil_of_length_eq_zero (Nat.le_zero.mp hle)
    subst hs
    simpa [replaceF_nil] using h
  | succ fuel ih =>
    intro s hle h
    cases s with
    | nil => simpa [replaceF_nil] using h
    | cons c cs =>
      have hcs := (containsSub_cons_false h).2
      have hlecs : cs.length ≤ fuel := Nat.le_of_succ_le_succ (by simpa using hle)
      simp only [replaceF]
      by_cases hm : pat ≠ [] ∧ pat.isPrefixOf (c :: cs)
      · rw [if_pos hm]
        refine containsSub_append_left q _ hq rep hdisj (ih _ ?_ ?_)
        · rw [List.length_drop]
          exact le_trans (Nat.sub_le _ _) hlecs
        · exact containsSub_drop q _ cs hcs
      · rw [if_neg hm]
        simp only [containsSub, Bool.or_eq_false_iff]
        refine ⟨?_, ih cs hlecs hcs⟩
        cases hql : q.isPrefixOf (c :: replaceF pat rep fuel cs) with
        | false => rfl
        | true =>
          exfalso
          cases q with
          | nil => exact hq rfl
          | cons a q2 =>
            simp only [List.isPrefixOf, Bool.and_eq_true, beq_iff_eq] at hql
            obtain ⟨rfl, h2⟩ := hql
            have h3 : q2.isPrefixOf cs = true :=
              replaceF_prefix_reflect pat rep hrep fuel cs q2 hlecs
                (fun a2 ha2 => hdisj a2 (List.mem_cons_of_mem _ ha2)) h2
            have h4 := (containsSub_cons_false h).1
            simp only [List.isPrefixOf, beq_self_eq_true, Bool.true_and] at h4
            rw [h3] at h4
            exact Bool.noConfusion h4

/-- After replacing `pat` by a non-empty `rep` whose characters avoid
`pat`, no occurrence of `pat` remains. -/
theorem replaceF_no_pat_occ (pat rep : List Char) (hpat : pat ≠ [])
    (hrep : rep ≠ []) (hdisj : ∀ a ∈ pat, a ∉ rep) :
    ∀ (fuel : Nat) (s : List Char), s.length ≤ fuel →
      containsSub pat (replaceF pat rep fuel s) = false := by
  intro fuel
  induction fuel with
  | zero =>
    intro s hle
    have hs : s = [] := List.eq_nil_of_length_eq_zero (Nat.le_zero.mp hle)
    subst hs
    simpa [replaceF_nil, containsSub, List.isEmpty_iff] using hpat
  | succ fuel ih =>
    intro s hle
    cases s with
    | nil => simpa [replaceF_nil, containsSub, List.isEmpty_iff] using hpat
    | cons c cs =>
      have hlecs : cs.length ≤ fuel := Nat.le_of_succ_le_succ (by simpa using hle)
      simp only [replaceF]
      by_cases hm : pat ≠ [] ∧ pat.isPrefixOf (c :: cs)
      · rw [if_pos hm]
        refine containsSub_append_left pat _ hpat rep hdisj (ih _ ?_)
        rw [List.length_drop]
        exact le_trans (Nat.sub_le _ _) hlecs
      · rw [if_neg hm]
        simp only [containsSub, Bool.or_eq_false_iff]
        refine ⟨?_, ih cs hlecs⟩
        cases hql : pat.isPrefixOf (c :: replaceF pat rep fuel cs) with
        | false => rfl
        | true =>
          exfalso
          have heq : replaceF pat rep (fuel + 1) (c :: cs)
              = c :: replaceF pat rep fuel cs := by
            simp only [replaceF]
            rw [if_neg hm]
          have h3 : pat.isPrefixOf (c :: cs) = true :=
            replaceF_prefix_reflect pat rep hrep (fuel + 1) (c :: cs) pat
              hle hdisj (heq ▸ hql)
          exact hm ⟨hpat, h3⟩

/-- Replacement is the identity on a string with no occurrence of the
pattern. -/
theorem replaceF_id_of_no_occ (pat rep : List Char) :
    ∀ (fuel : Nat) (s : List Char), containsSub pat s = false →
      replaceF pat rep fuel s = s := by
  intro fuel
  induction fuel with
  | zero =>
    intro s _
    cases s <;> rfl
  | succ fuel ih =>
    intro s h
    cases s with
    | nil => rfl
    | cons c cs =>
      obtain ⟨h1, h2⟩ := containsSub_cons_false h
      simp only [replaceF]
      rw [if_neg, ih cs h2]
      rintro ⟨-, hpre⟩
      rw [h1] at hpre
      exact Bool.noConfusion hpre

theorem foldl_row_data (sym : String) :
    ∀ (ms : List String) (s : String),
      (ms.foldl (fun s m => rustReplace s m sym) s).data
        = (ms.map (fun m => (m.data, sym.data))).foldl stepRep s.data := by
  intro ms
  induction ms with
  | nil => intro s; rfl
  | cons m ms2 ih =>
    intro s
    simp only [List.foldl_cons, List.map_cons]
    exact ih (rustReplace s m sym)

theorem foldl_rows_data :
    ∀ (rows : List (String × List String)) (s : String),
      (rows.foldl (fun s row => row.2.foldl (fun s m => rustReplace s m row.1) s) s).data
        = (flatRows rows).foldl stepRep s.data := by
  intro rows
  induction rows with
  | nil => intro s; rfl
  | cons row rows2 ih =>
    intro s
    simp only [List.foldl_cons, flatRows, List.foldr_cons, List.foldl_append]
    rw [ih, foldl_row_data]
    rfl

theorem expand_data (s : String) : (expand s).data = expandData s.data := by
  have h : flatRows TABLE = flatTABLE := by decide
  rw [expand, foldl_rows_data, h, expandData]

theorem replaceL_no_pat_occ (pat rep s : List Char) (hpat : pat ≠ [])
    (hrep : rep ≠ []) (hdisj : ∀ a ∈ pat, a ∉ rep) :
    containsSub pat (replaceL pat rep s) = false :=
  replaceF_no_pat_occ pat rep hpat hrep hdisj s.length s le_rfl

theorem replaceL_no_new_occ (pat rep q s : List Char) (hrep : rep ≠ [])
    (hq : q ≠ []) (hdisj : ∀ a ∈ q, a ∉ rep)
    (h : containsSub q s = false) :
    containsSub q (replaceL pat rep s) = false :=
  replaceF_no_new_occ pat rep q hrep hq hdisj s.length s le_rfl h

/-- Folding further replacements whose symbols avoid `q` preserves the
absence of `q`. -/
theorem foldl_stepRep_no_new_occ (q : List Char) (hq : q ≠ []) :
    ∀ (ps : List (List Char × List Char)) (l : List Char),
      (∀ p ∈ ps, p.2 ≠ [] ∧ ∀ a ∈ q, a ∉ p.2) →
      containsSub q l = false →
      containsSub q (ps.foldl stepRep l) = false := by
  intro ps
  induction ps with
  | nil =>
    intro l _ h
    simpa using h
  | cons p ps2 ih =>
    intro l hps h
    have hp := hps p (List.mem_cons_self _ _)
    exact ih _ (fun p2 hp2 => hps p2 (List.mem_cons_of_mem _ hp2))
      (replaceL_no_new_occ p.1 p.2 q l hp.1 hq hp.2 h)

/-- In a replacement table whose patterns' characters avoid all its
symbols, running the whole table leaves no occurrence of any pattern. -/
theorem foldl_stepRep_all_no_occ :
    ∀ (ps : List (List Char × List Char)) (l : List Char),
      (∀ p ∈ ps, p.1 ≠ [] ∧ p.2 ≠ []) →
      (∀ p ∈ ps, ∀ p2 ∈ ps, ∀ a ∈ p.1, a ∉ p2.2) →
      ∀ p ∈ ps, containsSub p.1 (ps.foldl stepRep l) = false := by
  intro ps
  induction ps with
  | nil =>
    intro l _ _ p hp
    exact absurd hp (List.not_mem_nil p)
  | cons p0 ps2 ih =>
    intro l hne hdisj p hp
    simp only [List.foldl_cons]
    rcases List.mem_cons.mp hp with rfl | hp2
    · have h0 := hne p (List.mem_cons_self _ _)
      refine foldl_stepRep_no_new_occ p.1 h0.1 ps2 _ ?_ ?_
      · intro p2 hp2
        exact ⟨(hne p2 (List.mem_cons_of_mem _ hp2)).2,
          hdisj p (List.mem_cons_self _ _) p2 (List.mem_cons_of_mem _ hp2)⟩
      · exact replaceL_no_pat_occ p.1 p.2 l h0.1 h0.2
          (hdisj p (List.mem_cons_self _ _) p (List.mem_cons_self _ _))
    · exact ih _ (fun p2 hp3 => hne p2 (List.mem_cons_of_mem _ hp3))
        (fun p2 hp3 p3 hp4 => hdisj p2 (List.mem_cons_of_mem _ hp3) p3
          (List.mem_cons_of_mem _ hp4)) p hp2

/-- A replacement table none of whose patterns occur in `l` leaves `l`
unchanged. -/
theorem foldl_stepRep_id :
    ∀ (ps : List (List Char × List Char)) (l : List Char),
      (∀ p ∈ ps, containsSub p.1 l = false) →
      ps.foldl stepRep l = l := by
  intro ps
  induction ps with
  | nil => intro l _; rfl
  | cons p ps2 ih =>
    intro l hps
    simp only [List.foldl_cons]
    have h0 : stepRep l p = l :=
      replaceF_id_of_no_occ p.1 p.2 l.length l (hps p (List.mem_cons_self _ _))
    rw [h0]
    exact ih l (fun p2 hp2 => hps p2 (List.mem_cons_of_mem _ hp2))

theorem expandData_no_macro_occ (l : List Char) :
    ∀ p ∈ flatTABLE, containsSub p.1 (expandData l) = false :=
  foldl_stepRep_all_no_occ flatTABLE l (by decide) (by decide)

/-- C10: `expand` is idempotent — its output contains no remaining macro
occurrence, so a second pass rewrites nothing. -/
theorem c10_expand_idempotent : ∀ s : String, expand (expand s) = expand s := by
  intro s
  have h1 : (expand (expand s)).data = (expand s).data := by
    rw [expand_data, expand_data]
    show flatTABLE.foldl stepRep (expandData s.data) = expandData s.data
    exact foldl_stepRep_id flatTABLE _ (expandData_no_macro_occ s.data)
  exact String.ext h1

/-! ## Theorems: proof creation (C5) -/

/-- C5: a proof created empty (not from a persisted document) consists of
exactly one blank premise and one default justified step whose rule is the
no-op/reiterate rule `Reit` with empty line-dependency and
subproof-dependency lists. -/
theorem c5_created_empty_proof_shape :
    createEmptyProof.top.1 = [(0, var "")]
    ∧ createEmptyProof.top.2
        = Lines.consJ 1 ⟨var "", Rule.Reit, [], []⟩ .nil := by
  decide

/-! ## Theorems: dependency toggling (C4) -/

theorem mem_btreeInsert {α : Type} [LinearOrder α] (x a : α) :
    ∀ l : List α, a ∈ btreeInsert x l ↔ a = x ∨ a ∈ l := by
  intro l
  induction l with
  | nil => simp [btreeInsert]
  | cons y ys ih =>
    simp only [btreeInsert]
    split_ifs with h1 h2
    · simp only [List.mem_cons]
    · subst h2
      simp only [List.mem_cons]
      tauto
    · simp only [List.mem_cons, ih]
      tauto

theorem sorted_btreeInsert {α : Type} [LinearOrder α] (x : α) :
    ∀ l : List α, List.Pairwise (· < ·) l →
      List.Pairwise (· < ·) (btreeInsert x l) := by
  intro l
  induction l with
  | nil =>
    intro _
    simp [btreeInsert]
  | cons y ys ih =>
    intro h
    rw [List.pairwise_cons] at h
    simp only [btreeInsert]
    split_ifs with h1 h2
    · rw [List.pairwise_cons]
      refine ⟨?_, List.pairwise_cons.mpr h⟩
      intro z hz
      rcases List.mem_cons.mp hz with rfl | hz2
      · exact h1
      · exact lt_trans h1 (h.1 z hz2)
    · exact List.pairwise_cons.mpr h
    · have hyx : y < x := lt_of_le_of_ne (le_of_not_lt h1) (fun he => h2 he.symm)
      rw [List.pairwise_cons]
      refine ⟨?_, ih h.2⟩
      intro z hz
      rcases (mem_btreeInsert x z ys).mp hz with rfl | hz2
      · exact hyx
      · exact h.1 z hz2

theorem mem_depSet {α : Type} [LinearOrder α] (deps : List α) :
    ∀ (init : List α) (a : α),
      a ∈ deps.foldl (fun s d => btreeInsert d s) init ↔ a ∈ deps ∨ a ∈ init := by
  induction deps with
  | nil => intro init a; simp
  | cons d ds ih =>
    intro init a
    simp only [List.foldl_cons, List.mem_cons]
    rw [ih, mem_btreeInsert]
    tauto

theorem sorted_depSet {α : Type} [LinearOrder α] (deps : List α) :
    ∀ init : List α, List.Pairwise (· < ·) init →
      List.Pairwise (· < ·) (deps.foldl (fun s d => btreeInsert d s) init) := by
  induction deps with
  | nil => intro init h; exact h
  | cons d ds ih =>
    intro init h
    exact ih _ (sorted_btreeInsert d init h)

theorem mem_btreeRemove_of_mem {α : Type} [DecidableEq α] (x a : α) :
    ∀ l : List α, a ∈ btreeRemove x l → a ∈ l := by
  intro l
  induction l with
  | nil => intro h; simp [btreeRemove] at h
  | cons y ys ih =>
    intro h
    simp only [btreeRemove] at h
    split_ifs at h with h1
    · exact List.mem_cons_of_mem _ h
    · rcases List.mem_cons.mp h with rfl | h2
      · exact List.mem_cons_self _ _
      · exact List.mem_cons_of_mem _ (ih h2)

theorem mem_btreeRemove_of_ne {α : Type} [DecidableEq α] (x a : α)
    (hne : a ≠ x) :
    ∀ l : List α, a ∈ l → a ∈ btreeRemove x l := by
  intro l
  induction l with
  | nil => intro h; simp at h
  | cons y ys ih =>
    intro h
    simp only [btreeRemove]
    split_ifs with h1
    · subst h1
      rcases List.mem_cons.mp h with rfl | h2
      · exact absurd rfl hne
      · exact h2
    · rcases List.mem_cons.mp h with rfl | h2
      · exact List.mem_cons_self _ _
      · exact List.mem_cons_of_mem _ (ih h2)

theorem not_mem_btreeRemove {α : Type} [DecidableEq α] (x : α) :
    ∀ l : List α, l.Nodup → x ∉ btreeRemove x l := by
  intro l
  induction l with
  | nil => intro _; simp [btreeRemove]
  | cons y ys ih =>
    intro h
    rw [List.nodup_cons] at h
    simp only [btreeRemove]
    split_ifs with h1
    · exact h1 ▸ h.1
    · intro hc
      rcases List.mem_cons.mp hc with rfl | h2
      · exact h1 rfl
      · exact ih h.2 h2

/-- Toggling membership of `dep` to the state it already has leaves the
vector unchanged as a set. -/
theorem mem_toggleDepOrSdep {α : Type} [LinearOrder α] (dep : α)
    (deps : List α) (setTo : Bool) (h : setTo = true ↔ dep ∈ deps) :
    ∀ x, x ∈ toggleDepOrSdep dep deps setTo ↔ x ∈ deps := by
  intro x
  simp only [toggleDepOrSdep]
  cases setTo with
  | true =>
    have hdep : dep ∈ deps := h.mp rfl
    simp only [if_pos]
    rw [mem_btreeInsert, mem_depSet]
    constructor
    · rintro (rfl | h2 | h2)
      · exact hdep
      · exact h2
      · simp at h2
    · intro h2
      exact Or.inr (Or.inl h2)
  | false =>
    have hdep : dep ∉ deps := fun hc => by simpa using h.mpr hc
    simp only [Bool.false_eq_true, if_false]
    constructor
    · intro hx
      have hx2 := mem_btreeRemove_of_mem dep x _ hx
      rw [mem_depSet] at hx2
      simpa using hx2
    · intro hx
      apply mem_btreeRemove_of_ne dep x (fun he => hdep (he ▸ hx))
      rw [mem_depSet]
      exact Or.inl hx

/-- C4: toggling a step's dependency on `dep` to its current membership
state — `true` when `dep` is already a member, `false` when it is not —
leaves the step's line-dependency and subproof-dependency sets unchanged
(the vector may be re-sorted and de-duplicated, but as a set neither
changes, and the other vector is untouched verbatim). -/
theorem c4_toggle_to_current_state_is_noop (j : Justification) (dep : DepRef)
    (setTo : Bool)
    (h : setTo = true ↔ (match dep with
      | .inl lr => lr ∈ j.deps
      | .inr sr => sr ∈ j.sdeps)) :
    (∀ x, x ∈ (setDependency j setTo dep).deps ↔ x ∈ j.deps)
    ∧ (∀ x, x ∈ (setDependency j setTo dep).sdeps ↔ x ∈ j.sdeps) := by
  cases dep with
  | inl lr =>
    exact ⟨fun x => mem_toggleDepOrSdep lr j.deps setTo (by simpa using h) x,
      fun x => Iff.rfl⟩
  | inr sr =>
    exact ⟨fun x => Iff.rfl,
      fun x => mem_toggleDepOrSdep sr j.sdeps setTo (by simpa using h) x⟩

/-- Witness for C4 at a concrete step: toggling the already-present line
dependency `prem 0` on leaves membership unchanged. -/
theorem c4_witness :
    PJRef.prem 0
        ∈ (setDependency ⟨var "c", .Reit, [.prem 0], [2]⟩ true
            (.inl (.prem 0))).deps
      ↔ PJRef.prem 0 ∈ (⟨var "c", .Reit, [.prem 0], [2]⟩ : Justification).deps :=
  (c4_toggle_to_current_state_is_noop ⟨var "c", .Reit, [.prem 0], [2]⟩
    (.inl (.prem 0)) true (by decide)).1 (PJRef.prem 0)

/-! ## Theorems: parse-gated verification (C8) -/

/-- C8: for a line with non-empty edited text, `verify_line` is attempted
iff the parse of that text succeeds.  When `parse` returns `none` the
feedback is a parse error and does not depend on the verifier at all (the
thunk is never forced); when `parse` succeeds, the feedback reports the
verifier's result — success, or the diagnostic-carrying rule violation —
as data.  `ruleFeedback` is a pure function of the widget state: it cannot
mutate the proof. -/
theorem c8_verify_gated_by_parse (parse : String → Option Expr)
    (v : Unit → Except String Unit) (input : Option String) (raw : String)
    (hne : input.bind (fun x => if x.length > 0 then some x else none)
      = some raw) :
    (parse raw = none →
      ruleFeedback parse v input = .parseError
      ∧ ∀ v2 : Unit → Except String Unit,
          ruleFeedback parse v2 input = ruleFeedback parse v input)
    ∧ (∀ e, parse raw = some e →
      ruleFeedback parse v input
        = match v () with
          | .ok _ => .correct
          | .error msg => .ruleError msg) := by
  constructor
  · intro hp
    constructor
    · simp [ruleFeedback, hne, hp]
    · intro v2
      simp [ruleFeedback, hne, hp]
  · intro e hp
    simp only [ruleFeedback, hne, hp, Option.map_some]
    cases v () <;> rfl

/-- Witness for C8: with the stub parser and the input `"Q"` (non-empty,
unparseable), the feedback is a parse error. -/
theorem c8_witness :
    ruleFeedback parseW (fun _ => .ok ()) (some "Q") = .parseError :=
  ((c8_verify_gated_by_parse parseW (fun _ => .ok ()) (some "Q") "Q"
    (by decide)).1 (by decide)).1

/-! ## Theorems: root subproof not removable (C7) -/

theorem parentOf_lookupSub : ∀ (ls : Lines) (x : PJRef) (m : Nat),
    ls.parentOf x = some m → ls.lookupSub m ≠ none := by
  intro ls
  induction ls with
  | nil =>
    intro x m h
    exact Option.noConfusion h
  | consJ i j r ihr =>
    intro x m h
    simp only [Lines.parentOf] at h
    simp only [Lines.lookupSub]
    exact ihr x m h
  | consS i ps b r ihb ihr =>
    intro x m h
    simp only [Lines.parentOf] at h
    simp only [Lines.lookupSub]
    by_cases him : i = m
    · simp [him]
    · rw [if_neg him]
      have hsome : b.parentOf x = some m ∨ r.parentOf x = some m := by
        split at h
        · exact absurd (Option.some.inj h) him
        · cases hb : b.parentOf x with
          | some m2 =>
            rw [hb] at h
            exact Or.inl h
          | none =>
            rw [hb] at h
            exact Or.inr h
      rcases hsome with hb | hr
      · have h3 := ihb x m hb
        cases hbl : b.lookupSub m with
        | some sp => simp
        | none => exact absurd hbl h3
      · have h3 := ihr x m hr
        cases hbl : b.lookupSub m with
        | some sp => simp
        | none => simpa using h3

/-- C7: the root subproof is never removed.  A delete-subproof request on a
line whose `parent_of_line` is `none` (a root-level line) is a no-op and
the proof is unchanged; otherwise `remove_subproof` is invoked exactly on
the line's enclosing parent, which is always a nested (non-root) subproof
present in the tree. -/
theorem c7_root_subproof_never_removed (pf : Pf) (r : PJRef) :
    (parentOfLine pf r = none → deleteSubproofAction pf r = pf)
    ∧ (∀ sr, parentOfLine pf r = some sr →
        deleteSubproofAction pf r = removeSubproof pf sr
        ∧ lookupSubproof pf sr ≠ none) := by
  constructor
  · intro h
    simp [deleteSubproofAction, h]
  · intro sr h
    refine ⟨by simp [deleteSubproofAction, h], ?_⟩
    simp only [parentOfLine] at h
    split at h
    · exact Option.noConfusion h
    · exact parentOf_lookupSub pf.top.2 r sr h

/-- Witness for C7: deleting the subproof of the root-level step of `pfW1`
is a no-op. -/
theorem c7_witness : deleteSubproofAction pfW1 (PJRef.just 1) = pfW1 :=
  (c7_root_subproof_never_removed pfW1 (PJRef.just 1)).1 (by decide)

/-! ## Theorems: minimum-content invariant (C1) -/

/-- C1 counterexample: in `pfC1` the root subproof has exactly one
justified-step line (step 1) but two lines (the second is a nested
subproof), so `may_remove_line` permits deleting that last remaining
justified step and `remove_line_if_allowed` removes it, changing the
subproof — the claim's "a request to delete its last remaining
justified-step line is refused and the subproof is unchanged" is false as
stated. -/
theorem c1_counterexample :
    pfC1.top.2.justCount = 1
    ∧ mayRemoveLine pfC1 (PJRef.just 1) = some true
    ∧ removeLineIfAllowed pfC1 pudEmpty (PJRef.just 1)
        = some (pfC1removed, pudEmpty)
    ∧ pfC1removed ≠ pfC1 := by
  decide

/-- C1 (amended): deleting a subproof's last remaining premise, or its last
remaining line, is refused and the proof is unchanged: `may_remove_line`
permits removal of a premise only when the owning subproof has more than
one premise and removal of a step only when the owning subproof has more
than one line, and `remove_line_if_allowed` calls `remove_line` only when
`may_remove_line` returns true — when it returns false only the line's UI
entries are dropped and the proof, hence every subproof, is untouched. -/
theorem c1_last_premise_or_line_removal_refused (pf : Pf) (pud : Pud)
    (r : PJRef) (pj : Sum Expr Justification) (h : lookupPj pf r = some pj) :
    mayRemoveLine pf r
      = some ((pj.isLeft && decide ((owningSub pf r).1.length > 1))
          || (!pj.isLeft && decide ((owningSub pf r).2.len > 1)))
    ∧ (((pj.isLeft && decide ((owningSub pf r).1.length > 1))
          || (!pj.isLeft && decide ((owningSub pf r).2.len > 1))) = false →
        removeLineIfAllowed pf pud r
          = some (pf, ⟨pud.refToLineDepth.filter (fun e => decide (e.1 ≠ r)),
                       pud.refToInput.filter (fun e => decide (e.1 ≠ r))⟩)) := by
  have h1 : mayRemoveLine pf r
      = some ((pj.isLeft && decide ((owningSub pf r).1.length > 1))
          || (!pj.isLeft && decide ((owningSub pf r).2.len > 1))) := by
    simp [mayRemoveLine, h]
  refine ⟨h1, fun hfalse => ?_⟩
  simp only [removeLineIfAllowed, h1, hfalse]

/-- Witness for C1 (amended) at the minimal proof: deleting the only step
of `pfW1` is refused, leaving the proof unchanged. -/
theorem c1_witness :
    removeLineIfAllowed pfW1 pudEmpty (PJRef.just 1)
      = some (pfW1,
          ⟨pudEmpty.refToLineDepth.filter
              (fun e => decide (e.1 ≠ PJRef.just 1)),
            pudEmpty.refToInput.filter
              (fun e => decide (e.1 ≠ PJRef.just 1))⟩) :=
  (c1_last_premise_or_line_removal_refused pfW1 pudEmpty (PJRef.just 1)
    (Sum.inr ⟨var "q", .Reit, [], []⟩) (by decide)).2 (by decide)

/-! ## Theorems: derived line numbering (C6) -/

theorem insertA_append {K V : Type} [DecidableEq K] (m : List (K × V)) (k : K)
    (v : V) (h : k ∉ m.map Prod.fst) : insertA m k v = m ++ [(k, v)] := by
  induction m with
  | nil => rfl
  | cons e rest ih =>
    simp only [List.map_cons, List.mem_cons] at h
    push_neg at h
    simp only [insertA]
    rw [if_neg (fun he => h.1 he.symm), ih h.2]
    rfl

theorem keys_numberFrom :
    ∀ (l : List (PJRef × Nat)) (n : Nat),
      (numberFrom l n).map Prod.fst = l.map Prod.fst := by
  intro l
  induction l with
  | nil => intro n; rfl
  | cons e rest ih =>
    intro n
    simp only [numberFrom, List.map_cons, ih]

theorem numberFrom_append :
    ∀ (l1 l2 : List (PJRef × Nat)) (n : Nat),
      numberFrom (l1 ++ l2) n = numberFrom l1 n ++ numberFrom l2 (n + l1.length) := by
  intro l1
  induction l1 with
  | nil =>
    intro l2 n
    simp [numberFrom]
  | cons e rest ih =>
    intro l2 n
    have h1 : numberFrom ((e :: rest) ++ l2) n
        = (e.1, (n, e.2)) :: numberFrom (rest ++ l2) (n + 1) := rfl
    have h2 : numberFrom (e :: rest) n
        = (e.1, (n, e.2)) :: numberFrom rest (n + 1) := rfl
    rw [h1, h2, ih]
    have h3 : n + 1 + rest.length = n + (e :: rest).length := by
      simp only [List.length_cons]
      omega
    rw [h3]
    rfl

theorem preorder_keys :
    ∀ (ls : Lines) (d : Nat), (preorderL ls d).map Prod.fst = pjOrderL ls := by
  intro ls
  induction ls with
  | nil => intro d; rfl
  | consJ i j r ihr =>
    intro d
    simp only [preorderL, pjOrderL, List.map_cons, ihr]
  | consS i ps b r ihb ihr =>
    intro d
    simp only [preorderL, pjOrderL, List.map_append, ihb, ihr, List.map_map]
    rfl

/-- `calculate_lineinfo`'s premise loop appends a sequentially numbered
block when its keys are fresh. -/
theorem calcPrems_spec :
    ∀ (ps : List (Nat × Expr)) (out : List (PJRef × (Nat × Nat)))
      (line depth : Nat),
      (∀ p ∈ ps, PJRef.prem p.1 ∉ out.map Prod.fst) →
      (ps.map (fun p => PJRef.prem p.1)).Nodup →
      calcPrems ps out line depth
        = (out ++ numberFrom (ps.map (fun p => (PJRef.prem p.1, depth))) line,
           line + ps.length) := by
  intro ps
  induction ps with
  | nil =>
    intro out line depth _ _
    simp [calcPrems, numberFrom]
  | cons p ps2 ih =>
    intro out line depth hdisj hnodup
    simp only [List.map_cons, List.nodup_cons] at hnodup
    simp only [calcPrems]
    rw [insertA_append out _ _ (hdisj p (List.mem_cons_self _ _))]
    rw [ih (out ++ [(PJRef.prem p.1, (line, depth))]) (line + 1) depth ?_ hnodup.2]
    · simp only [List.map_cons, numberFrom, List.length_cons, Prod.mk.injEq]
      constructor
      · rw [List.append_assoc, List.singleton_append]
      · omega
    · intro q hq
      simp only [List.map_append, List.mem_append]
      push_neg
      refine ⟨hdisj q (List.mem_cons_of_mem _ hq), ?_⟩
      simp only [List.map_cons, List.map_nil, List.mem_singleton]
      intro he
      exact hnodup.1 (he ▸ List.mem_map_of_mem (fun p => PJRef.prem p.1) hq)

/-- `calculate_lineinfo`'s line loop appends the sequentially numbered
pre-order listing when its keys are fresh. -/
theorem calcLines_spec :
    ∀ (ls : Lines) (out : List (PJRef × (Nat × Nat))) (line depth : Nat),
      (∀ x ∈ pjOrderL ls, x ∉ out.map Prod.fst) →
      (pjOrderL ls).Nodup →
      calcLines ls out line depth
        = (out ++ numberFrom (preorderL ls depth) line,
           line + (pjOrderL ls).length) := by
  intro ls
  induction ls with
  | nil =>
    intro out line depth _ _
    simp [calcLines, preorderL, pjOrderL, numberFrom]
  | consJ i j r ihr =>
    intro out line depth hdisj hnodup
    simp only [pjOrderL, List.nodup_cons] at hnodup
    simp only [calcLines]
    rw [insertA_append out _ _ (hdisj _ (by simp [pjOrderL]))]
    rw [ihr (out ++ [(PJRef.just i, (line, depth))]) (line + 1) depth ?_ hnodup.2]
    · simp only [preorderL, numberFrom, pjOrderL, List.length_cons, Prod.mk.injEq]
      constructor
      · rw [List.append_assoc, List.singleton_append]
      · omega
    · intro x hx
      simp only [List.map_append, List.mem_append]
      push_neg
      refine ⟨hdisj x (by simp [pjOrderL, hx]), ?_⟩
      simp only [List.map_cons, List.map_nil, List.mem_singleton]
      intro he
      exact hnodup.1 (he ▸ hx)
  | consS i0 ps b r ihb ihr =>
    intro out line depth hdisj hnodup
    simp only [pjOrderL] at hnodup hdisj
    rw [List.nodup_append] at hnodup
    obtain ⟨hn12, hn3, hd12w3⟩ := hnodup
    rw [List.nodup_append] at hn12
    obtain ⟨hn1, hn2, hd1w2⟩ := hn12
    have hlb : (preorderL b (depth + 1)).length = (pjOrderL b).length := by
      rw [← preorder_keys b (depth + 1), List.length_map]
    simp only [calcLines]
    rw [calcPrems_spec ps out line (depth + 1) ?_ hn1]
    · rw [ihb _ (line + ps.length) (depth + 1) ?_ hn2]
      · rw [ihr _ (line + ps.length + (pjOrderL b).length) depth ?_ hn3]
        · simp only [preorderL, pjOrderL, numberFrom_append, List.length_append,
            List.length_map, Prod.mk.injEq, hlb, List.append_assoc,
            Nat.add_assoc]
        · intro x hx
          simp only [List.map_append, List.mem_append, keys_numberFrom]
          push_neg
          refine ⟨⟨hdisj x (by simp [hx]), ?_⟩, ?_⟩
          · simp only [List.map_map]
            intro hc
            exact hd12w3 (List.mem_append_left _ (by simpa using hc)) hx
          · rw [preorder_keys]
            intro hc
            exact hd12w3 (List.mem_append_right _ hc) hx
      · intro x hx
        simp only [List.map_append, List.mem_append, keys_numberFrom]
        push_neg
        refine ⟨hdisj x (by simp [hx]), ?_⟩
        simp only [List.map_map]
        intro hc
        exact hd1w2 (by simpa using hc) hx
    · intro p hp
      refine hdisj (PJRef.prem p.1) ?_
      simp only [List.mem_append, List.mem_map]
      exact Or.inl (Or.inl ⟨p, hp, rfl⟩)

/-- C6: `calculate_lineinfo` assigns sequential line numbers, starting
from 1, to premises and justified steps in pre-order document order;
subproofs receive no number of their own and their contents are assigned
the enclosing depth plus one; and this derived view is recomputed by the
widget after every structural mutation before the update returns (the
messages that change nothing — `Nop` and the unimplemented
insert-relative-to-subproof arm — leave the state untouched). -/
theorem c6_lineinfo_preorder_numbering (sp : Subproof)
    (hnodup : (pjOrder sp).Nodup) :
    ((calcSub sp [] 1 0).1 = numberFrom (preorderSub sp 0) 1
      ∧ (calcSub sp [] 1 0).2 = 1 + (preorderSub sp 0).length)
    ∧ ∀ (parse : String → Option Expr) (st : WidgetState)
        (msg : ProofWidgetMsg) (st2 : WidgetState),
        widgetUpdate parse st msg = some st2 →
        st2 = st
          ∨ ∃ mid, st2.pud.refToLineDepth = (calcSub st2.prf.top mid 1 0).1 := by
  constructor
  · simp only [pjOrder] at hnodup
    rw [List.nodup_append] at hnodup
    obtain ⟨hn1, hn2, hd12⟩ := hnodup
    simp only [calcSub]
    rw [calcPrems_spec sp.1 [] 1 0 (by simp) hn1]
    rw [calcLines_spec sp.2 _ (1 + sp.1.length) 0 ?_ hn2]
    · have hls : (preorderL sp.2 0).length = (pjOrderL sp.2).length := by
        rw [← preorder_keys sp.2 0]
        simp
      simp only [preorderSub, numberFrom_append, List.length_append,
        List.nil_append, List.length_map, Prod.mk.injEq, hls]
      constructor
      · trivial
      · omega
    · intro x hx
      simp only [List.nil_append, keys_numberFrom, List.map_map]
      intro hc
      exact hd12 (by simpa using hc) hx
  · intro parse st msg st2 h
    cases msg with
    | nop => exact Or.inl (Option.some.inj h).symm
    | lineChanged r input =>
      obtain rfl : st2 = _ := (Option.some.inj h).symm
      exact Or.inr ⟨_, rfl⟩
    | lineAction k r =>
      cases k with
      | insert what afterB relativeTo =>
        cases relativeTo with
        | subproof => exact Or.inl (Option.some.inj h).symm
        | line =>
          cases what with
          | line =>
            cases r with
            | prem pr =>
              obtain rfl : st2 = _ := (Option.some.inj h).symm
              exact Or.inr ⟨_, rfl⟩
            | just jr =>
              obtain rfl : st2 = _ := (Option.some.inj h).symm
              exact Or.inr ⟨_, rfl⟩
          | subproof =>
            cases r with
            | prem pr => exact Option.noConfusion h
            | just jr =>
              obtain rfl : st2 = _ := (Option.some.inj h).symm
              exact Or.inr ⟨_, rfl⟩
      | delete what =>
        cases what with
        | line =>
          simp only [widgetUpdate] at h
          split at h
          · exact Option.noConfusion h
          · obtain rfl : st2 = _ := (Option.some.inj h).symm
            exact Or.inr ⟨_, rfl⟩
        | subproof =>
          obtain rfl : st2 = _ := (Option.some.inj h).symm
          exact Or.inr ⟨_, rfl⟩
      | setRule rule =>
        obtain rfl : st2 = _ := (Option.some.inj h).symm
        exact Or.inr ⟨_, rfl⟩
      | select =>
        obtain rfl : st2 = _ := (Option.some.inj h).symm
        exact Or.inr ⟨_, rfl⟩
      | setDependency setTo dep =>
        obtain rfl : st2 = _ := (Option.some.inj h).symm
        exact Or.inr ⟨_, rfl⟩

/-- Witness for C6 at the nested proof `pfN`: references are distinct, so
the theorem applies; its first conjunct gives the concrete numbering. -/
theorem c6_witness :
    (calcSub pfN.top [] 1 0).1 = numberFrom (preorderSub pfN.top 0) 1
      ∧ (calcSub pfN.top [] 1 0).2 = 1 + (preorderSub pfN.top 0).length :=
  (c6_lineinfo_preorder_numbering pfN.top (by decide)).1

/-! ## Theorems: the dependency validator (C2)

The executable scope walk (`scopeL`) is proved equivalent to the claim's
chain formulation (`DescentTo`/`citesAlong`), and no reference strictly
inside a subproof that does not enclose `A` is ever in scope. -/

theorem not_just_mem_premRefs (ps : List (Nat × Expr)) (a : Nat) :
    DepRef.inl (PJRef.just a) ∉ premRefs ps := by
  intro h
  obtain ⟨p, -, hp⟩ := List.mem_map.mp h
  simp at hp

theorem not_inr_mem_premRefs (ps : List (Nat × Expr)) (i : Nat) :
    DepRef.inr i ∉ premRefs ps := by
  intro h
  obtain ⟨p, -, hp⟩ := List.mem_map.mp h
  simp at hp

theorem scopeL_none_iff :
    ∀ (ls : Lines) (a : Nat), scopeL ls a = none ↔ ls.hasJustDeep a = false := by
  intro ls
  induction ls with
  | nil =>
    intro a
    simp [scopeL, Lines.hasJustDeep]
  | consJ i j r ihr =>
    intro a
    by_cases hia : i = a
    · simp [scopeL, Lines.hasJustDeep, hia]
    · simp [scopeL, Lines.hasJustDeep, hia, Option.map_eq_none', ihr]
  | consS i ps b r ihb ihr =>
    intro a
    simp only [scopeL, Lines.hasJustDeep]
    cases hb : scopeL b a with
    | some l =>
      have : b.hasJustDeep a = true := by
        cases hj : b.hasJustDeep a with
        | true => rfl
        | false => rw [(ihb a).mpr hj] at hb; exact Option.noConfusion hb
      simp [this]
    | none =>
      have hbf : b.hasJustDeep a = false := (ihb a).mp hb
      simp [hbf, ihr]

theorem subEntry_mem_entries :
    ∀ (ls : Lines) (i : Nat) (s : Subproof),
      (i, s) ∈ subEntries ls → DepRef.inr i ∈ entriesL ls := by
  intro ls
  induction ls with
  | nil =>
    intro i s h
    simp [subEntries] at h
  | consJ i0 j r ihr =>
    intro i s h
    exact List.mem_cons_of_mem _ (ihr i s h)
  | consS i0 ps b r ihb ihr =>
    intro i s h
    simp only [subEntries, List.mem_cons] at h
    rcases h with h | h
    · have hi : i = i0 := congrArg Prod.fst h
      simp only [entriesL, List.mem_cons]
      exact Or.inl (by rw [hi])
    · exact List.mem_cons_of_mem _ (ihr i s h)

theorem subEntry_deepSubs :
    ∀ (ls : Lines) (i : Nat) (s : Subproof),
      (i, s) ∈ subEntries ls → (i, s) ∈ deepSubs ls := by
  intro ls
  induction ls with
  | nil =>
    intro i s h
    simp [subEntries] at h
  | consJ i0 j r ihr =>
    intro i s h
    exact ihr i s h
  | consS i0 ps b r ihb ihr =>
    intro i s h
    simp only [subEntries, List.mem_cons] at h
    simp only [deepSubs, List.mem_cons, List.mem_append]
    rcases h with h | h
    · exact Or.inl h
    · exact Or.inr (Or.inr (ihr i s h))

theorem hasJust_of_mem_entries :
    ∀ (ls : Lines) (a : Nat),
      DepRef.inl (PJRef.just a) ∈ entriesL ls → ls.hasJustDeep a = true := by
  intro ls
  induction ls with
  | nil =>
    intro a h
    simp [entriesL] at h
  | consJ i j r ihr =>
    intro a h
    simp only [entriesL, List.mem_cons] at h
    simp only [Lines.hasJustDeep, Bool.or_eq_true, beq_iff_eq]
    rcases h with h | h
    · exact Or.inl (PJRef.just.inj (DepRef.inl.inj h)).symm
    · exact Or.inr (ihr a h)
  | consS i ps b r ihb ihr =>
    intro a h
    simp only [entriesL, List.mem_cons] at h
    simp only [Lines.hasJustDeep, Bool.or_eq_true]
    rcases h with h | h
    · exact absurd h.symm (by simp)
    · exact Or.inr (ihr a h)

theorem hasJust_of_subEntry :
    ∀ (ls : Lines) (i : Nat) (s : Subproof) (a : Nat),
      (i, s) ∈ subEntries ls → s.2.hasJustDeep a = true →
      ls.hasJustDeep a = true := by
  intro ls
  induction ls with
  | nil =>
    intro i s a h
    simp [subEntries] at h
  | consJ i0 j r ihr =>
    intro i s a h hs
    simp only [Lines.hasJustDeep, Bool.or_eq_true]
    exact Or.inr (ihr i s a h hs)
  | consS i0 ps b r ihb ihr =>
    intro i s a h hs
    simp only [subEntries, List.mem_cons] at h
    simp only [Lines.hasJustDeep, Bool.or_eq_true]
    rcases h with h | h
    · left
      have hb : s.2 = b := congrArg Prod.snd (Prod.mk.inj h).2
      exact hb ▸ hs
    · exact Or.inr (ihr i s a h hs)

theorem hasJust_mem_allRefsL :
    ∀ (ls : Lines) (a : Nat), ls.hasJustDeep a = true →
      DepRef.inl (PJRef.just a) ∈ allRefsL ls := by
  intro ls
  induction ls with
  | nil =>
    intro a h
    simp [Lines.hasJustDeep] at h
  | consJ i j r ihr =>
    intro a h
    simp only [Lines.hasJustDeep, Bool.or_eq_true, beq_iff_eq] at h
    simp only [allRefsL, List.mem_cons]
    rcases h with h | h
    · exact Or.inl (by rw [h])
    · exact Or.inr (ihr a h)
  | consS i ps b r ihb ihr =>
    intro a h
    simp only [Lines.hasJustDeep, Bool.or_eq_true] at h
    simp only [allRefsL, List.mem_cons, List.mem_append]
    rcases h with h | h
    · exact Or.inr (Or.inl (Or.inr (ihb a h)))
    · exact Or.inr (Or.inr (ihr a h))

theorem mem_allRefs_of_deepSub :
    ∀ (ls : Lines) (i : Nat) (s : Subproof) (x : DepRef),
      (i, s) ∈ deepSubs ls → x ∈ allRefs s → x ∈ allRefsL ls := by
  intro ls
  induction ls with
  | nil =>
    intro i s x h
    simp [deepSubs] at h
  | consJ i0 j r ihr =>
    intro i s x h hx
    exact List.mem_cons_of_mem _ (ihr i s x h hx)
  | consS i0 ps b r ihb ihr =>
    intro i s x h hx
    simp only [deepSubs, List.mem_cons, List.mem_append] at h
    simp only [allRefsL, List.mem_cons, List.mem_append]
    rcases h with h | h | h
    · have h1 : s.1 = ps := congrArg (Prod.fst ∘ Prod.snd) h
      have h2 : s.2 = b := congrArg (Prod.snd ∘ Prod.snd) h
      simp only [allRefs, List.mem_append] at hx
      rcases hx with hx | hx
      · exact Or.inr (Or.inl (Or.inl (h1 ▸ hx)))
      · exact Or.inr (Or.inl (Or.inr (h2 ▸ hx)))
    · exact Or.inr (Or.inl (Or.inr (ihb i s x h hx)))
    · exact Or.inr (Or.inr (ihr i s x h hx))

theorem entriesL_sublist_allRefsL :
    ∀ ls : Lines, List.Sublist (entriesL ls) (allRefsL ls) := by
  intro ls
  induction ls with
  | nil => exact List.Sublist.refl _
  | consJ i j r ihr =>
    exact List.Sublist.cons₂ _ ihr
  | consS i ps b r ihb ihr =>
    refine List.Sublist.cons₂ _ ?_
    exact List.Sublist.trans ihr (List.sublist_append_right _ _)

theorem scope_mem_allRefsL :
    ∀ (ls : Lines) (a : Nat) (l : List DepRef) (x : DepRef),
      scopeL ls a = some l → x ∈ l → x ∈ allRefsL ls := by
  intro ls
  induction ls with
  | nil =>
    intro a l x h
    exact Option.noConfusion h
  | consJ i j r ihr =>
    intro a l x h hx
    simp only [scopeL] at h
    split at h
    · obtain rfl : ([] : List DepRef) = l := Option.some.inj h
      simp at hx
    · cases hr : scopeL r a with
      | none => rw [hr] at h; exact Option.noConfusion h
      | some l2 =>
        rw [hr] at h
        obtain rfl : DepRef.inl (PJRef.just i) :: l2 = l := Option.some.inj h
        simp only [allRefsL, List.mem_cons]
        rcases List.mem_cons.mp hx with h2 | h2
        · exact Or.inl h2
        · exact Or.inr (ihr a l2 x hr h2)
  | consS i ps b r ihb ihr =>
    intro a l x h hx
    simp only [scopeL] at h
    cases hb : scopeL b a with
    | some l0 =>
      rw [hb] at h
      obtain rfl : premRefs ps ++ l0 = l := Option.some.inj h
      simp only [allRefsL, List.mem_cons, List.mem_append]
      rcases List.mem_append.mp hx with h2 | h2
      · exact Or.inr (Or.inl (Or.inl h2))
      · exact Or.inr (Or.inl (Or.inr (ihb a l0 x hb h2)))
    | none =>
      rw [hb] at h
      cases hr : scopeL r a with
      | none => rw [hr] at h; exact Option.noConfusion h
      | some l2 =>
        rw [hr] at h
        obtain rfl : DepRef.inr i :: l2 = l := Option.some.inj h
        simp only [allRefsL, List.mem_cons, List.mem_append]
        rcases List.mem_cons.mp hx with h2 | h2
        · exact Or.inl h2
        · exact Or.inr (Or.inr (ihr a l2 x hr h2))

theorem precedesList_cons (b cut x : DepRef) (rest : List DepRef) :
    precedesList b cut (x :: rest)
      = if x = cut then false
        else if x = b then decide (cut ∈ rest)
        else precedesList b cut rest := rfl

theorem precedesList_append_cons (b cut : DepRef) :
    ∀ (pre suf : List DepRef), cut ∉ pre →
      (precedesList b cut (pre ++ cut :: suf) = true ↔ b ∈ pre) := by
  intro pre
  induction pre with
  | nil =>
    intro suf _
    rw [List.nil_append, precedesList_cons]
    simp
  | cons x pre2 ih =>
    intro suf h
    simp only [List.mem_cons] at h
    push_neg at h
    rw [List.cons_append, precedesList_cons]
    rw [if_neg (fun he => h.1 he.symm)]
    by_cases hxb : x = b
    · rw [if_pos hxb]
      simp only [decide_eq_true_eq, List.mem_cons]
      constructor
      · intro _
        exact Or.inl hxb.symm
      · intro _
        exact List.mem_append_right _ (List.mem_cons_self _ _)
    · rw [if_neg hxb, ih suf h.2]
      simp only [List.mem_cons]
      constructor
      · exact Or.inr
      · rintro (rfl | h2)
        · exact absurd rfl hxb
        · exact h2

theorem precedesList_insert (b cut x : DepRef) :
    ∀ (pre rest : List DepRef), x ≠ cut → cut ∉ pre → cut ∈ rest →
      (precedesList b cut (pre ++ x :: rest) = true
        ↔ (b = x ∨ precedesList b cut (pre ++ rest) = true)) := by
  intro pre
  induction pre with
  | nil =>
    intro rest hxc hcp hcr
    rw [List.nil_append, List.nil_append, precedesList_cons]
    rw [if_neg hxc]
    by_cases hxb : x = b
    · rw [if_pos hxb]
      simp only [decide_eq_true_eq]
      constructor
      · intro _
        exact Or.inl hxb.symm
      · intro _
        exact hcr
    · rw [if_neg hxb]
      constructor
      · exact fun h2 => Or.inr h2
      · rintro (rfl | h2)
        · exact absurd rfl hxb
        · exact h2
  | cons y pre2 ih =>
    intro rest hxc hcp hcr
    simp only [List.mem_cons] at hcp
    push_neg at hcp
    rw [List.cons_append, List.cons_append, precedesList_cons, precedesList_cons]
    by_cases hyb : y = b
    · rw [if_neg (fun he => hcp.1 he.symm), if_pos hyb,
        if_neg (fun he => hcp.1 he.symm), if_pos hyb]
      simp only [decide_eq_true_eq]
      constructor
      · intro _
        exact Or.inr (List.mem_append_right _ hcr)
      · intro _
        exact List.mem_append_right _ (List.mem_cons_of_mem _ hcr)
    · rw [if_neg (fun he => hcp.1 he.symm), if_neg hyb,
        if_neg (fun he => hcp.1 he.symm), if_neg hyb]
      exact ih rest hxc hcp.2 hcr

theorem descent_hasJust :
    ∀ (sp : Subproof) (a : Nat) (p : List (Nat × Subproof)),
      DescentTo sp a p → sp.2.hasJustDeep a = true := by
  intro sp a p h
  induction h with
  | here sp2 a2 hmem => exact hasJust_of_mem_entries _ _ hmem
  | there sp2 a2 i s p2 hmem hd ih => exact hasJust_of_subEntry _ i s _ hmem ih

theorem descent_consJ_intro (ps : List (Nat × Expr)) (i : Nat)
    (j : Justification) (r : Lines) (a : Nat) (p : List (Nat × Subproof))
    (h : DescentTo (ps, r) a p) : DescentTo (ps, Lines.consJ i j r) a p := by
  cases h with
  | here _ _ hmem =>
    refine DescentTo.here _ _ ?_
    simp only [entriesL, List.mem_cons]
    exact Or.inr hmem
  | there _ _ i2 s p2 hmem hd => exact DescentTo.there _ _ i2 s p2 hmem hd

theorem descent_consJ_elim (ps : List (Nat × Expr)) (i : Nat)
    (j : Justification) (r : Lines) (a : Nat) (p : List (Nat × Subproof))
    (hia : i ≠ a) (h : DescentTo (ps, Lines.consJ i j r) a p) :
    DescentTo (ps, r) a p := by
  cases h with
  | here _ _ hmem =>
    simp only [entriesL, List.mem_cons] at hmem
    rcases hmem with h2 | h2
    · exact absurd (PJRef.just.inj (DepRef.inl.inj h2)).symm hia
    · exact DescentTo.here _ _ h2
  | there _ _ i2 s p2 hmem hd => exact DescentTo.there _ _ i2 s p2 hmem hd

theorem descent_consS_tail (ps : List (Nat × Expr)) (i0 : Nat)
    (ps0 : List (Nat × Expr)) (b0 r : Lines) (a : Nat)
    (p : List (Nat × Subproof)) (h : DescentTo (ps, r) a p) :
    DescentTo (ps, Lines.consS i0 ps0 b0 r) a p := by
  cases h with
  | here _ _ hmem =>
    refine DescentTo.here _ _ ?_
    simp only [entriesL, List.mem_cons]
    exact Or.inr hmem
  | there _ _ i2 s p2 hmem hd =>
    refine DescentTo.there _ _ i2 s p2 ?_ hd
    simp only [subEntries, List.mem_cons]
    exact Or.inr hmem

theorem descent_consS_head (ps : List (Nat × Expr)) (i0 : Nat)
    (ps0 : List (Nat × Expr)) (b0 r : Lines) (a : Nat)
    (p : List (Nat × Subproof)) (h : DescentTo (ps0, b0) a p) :
    DescentTo (ps, Lines.consS i0 ps0 b0 r) a ((i0, (ps0, b0)) :: p) := by
  refine DescentTo.there _ _ i0 (ps0, b0) p ?_ h
  simp [subEntries]

theorem descent_exists :
    ∀ (ls : Lines) (a : Nat) (l : List DepRef), scopeL ls a = some l →
      ∀ ps : List (Nat × Expr), ∃ p, DescentTo (ps, ls) a p := by
  intro ls
  induction ls with
  | nil =>
    intro a l h
    exact Option.noConfusion h
  | consJ i j r ihr =>
    intro a l h ps
    simp only [scopeL] at h
    split at h
    · rename_i hia
      refine ⟨[], DescentTo.here _ _ ?_⟩
      simp only [entriesL, List.mem_cons]
      exact Or.inl (by rw [hia])
    · cases hr : scopeL r a with
      | none =>
        rw [hr] at h
        exact Option.noConfusion h
      | some l2 =>
        obtain ⟨p, hp⟩ := ihr a l2 hr ps
        exact ⟨p, descent_consJ_intro ps i j r a p hp⟩
  | consS i0 ps0 b0 r ihb ihr =>
    intro a l h ps
    simp only [scopeL] at h
    cases hb : scopeL b0 a with
    | some l0 =>
      obtain ⟨p, hp⟩ := ihb a l0 hb ps0
      exact ⟨_, descent_consS_head ps i0 ps0 b0 r a p hp⟩
    | none =>
      rw [hb] at h
      cases hr : scopeL r a with
      | none =>
        rw [hr] at h
        exact Option.noConfusion h
      | some l2 =>
        obtain ⟨p, hp⟩ := ihr a l2 hr ps
        exact ⟨p, descent_consS_tail ps i0 ps0 b0 r a p hp⟩

theorem cites_consJ (ps : List (Nat × Expr)) (i : Nat) (j : Justification)
    (r : Lines) (a : Nat) (b : DepRef) (p : List (Nat × Subproof))
    (hd : DescentTo (ps, r) a p) (hia : i ≠ a) :
    (citesAlong b (ps, Lines.consJ i j r) p a
      ↔ (b = DepRef.inl (PJRef.just i) ∨ citesAlong b (ps, r) p a)) := by
  cases p with
  | nil =>
    have hmem : DepRef.inl (PJRef.just a) ∈ entriesL r := by
      cases hd with
      | here _ _ hm => exact hm
    have hins := precedesList_insert b (DepRef.inl (PJRef.just a))
      (DepRef.inl (PJRef.just i)) (premRefs ps) (entriesL r)
      (fun he => hia (PJRef.just.inj (DepRef.inl.inj he)))
      (not_just_mem_premRefs ps a) hmem
    exact hins
  | cons hd2 p2 =>
    obtain ⟨i2, s⟩ := hd2
    have hmem : DepRef.inr i2 ∈ entriesL r := by
      cases hd with
      | there _ _ _ _ _ hm _ => exact subEntry_mem_entries r i2 s hm
    have hins := precedesList_insert b (DepRef.inr i2)
      (DepRef.inl (PJRef.just i)) (premRefs ps) (entriesL r)
      (by simp) (not_inr_mem_premRefs ps i2) hmem
    show (precedesList b (DepRef.inr i2)
        (premRefs ps ++ DepRef.inl (PJRef.just i) :: entriesL r) = true
        ∨ citesAlong b s p2 a) ↔ _
    rw [hins]
    show _ ↔ (_ ∨ (precedesList b (DepRef.inr i2)
        (premRefs ps ++ entriesL r) = true ∨ citesAlong b s p2 a))
    tauto

theorem cites_consS_tail (ps : List (Nat × Expr)) (i0 : Nat)
    (ps0 : List (Nat × Expr)) (b0 r : Lines) (a : Nat) (b : DepRef)
    (p : List (Nat × Subproof)) (hd : DescentTo (ps, r) a p)
    (hni : ∀ i2 s p2, p = (i2, s) :: p2 → i2 ≠ i0) :
    (citesAlong b (ps, Lines.consS i0 ps0 b0 r) p a
      ↔ (b = DepRef.inr i0 ∨ citesAlong b (ps, r) p a)) := by
  cases p with
  | nil =>
    have hmem : DepRef.inl (PJRef.just a) ∈ entriesL r := by
      cases hd with
      | here _ _ hm => exact hm
    have hins := precedesList_insert b (DepRef.inl (PJRef.just a))
      (DepRef.inr i0) (premRefs ps) (entriesL r)
      (by simp) (not_just_mem_premRefs ps a) hmem
    exact hins
  | cons hd2 p2 =>
    obtain ⟨i2, s⟩ := hd2
    have hmem : DepRef.inr i2 ∈ entriesL r := by
      cases hd with
      | there _ _ _ _ _ hm _ => exact subEntry_mem_entries r i2 s hm
    have hne : DepRef.inr i0 ≠ DepRef.inr i2 := by
      intro he
      exact hni i2 s p2 rfl (DepRef.inr.inj he).symm
    have hins := precedesList_insert b (DepRef.inr i2)
      (DepRef.inr i0) (premRefs ps) (entriesL r)
      hne (not_inr_mem_premRefs ps i2) hmem
    show (precedesList b (DepRef.inr i2)
        (premRefs ps ++ DepRef.inr i0 :: entriesL r) = true
        ∨ citesAlong b s p2 a) ↔ _
    rw [hins]
    show _ ↔ (_ ∨ (precedesList b (DepRef.inr i2)
        (premRefs ps ++ entriesL r) = true ∨ citesAlong b s p2 a))
    tauto

theorem cites_consS_head (ps : List (Nat × Expr)) (i0 : Nat)
    (ps0 : List (Nat × Expr)) (b0 r : Lines) (a : Nat) (b : DepRef)
    (p : List (Nat × Subproof)) :
    (citesAlong b (ps, Lines.consS i0 ps0 b0 r) ((i0, (ps0, b0)) :: p) a
      ↔ (b ∈ premRefs ps ∨ citesAlong b (ps0, b0) p a)) := by
  have h1 := precedesList_append_cons b (DepRef.inr i0) (premRefs ps)
    (entriesL r) (not_inr_mem_premRefs ps i0)
  show (precedesList b (DepRef.inr i0)
      (premRefs ps ++ DepRef.inr i0 :: entriesL r) = true
      ∨ citesAlong b (ps0, b0) p a) ↔ _
  rw [h1]

theorem mem_append_cons_iff {α : Type} (b x : α) (A B : List α) :
    b ∈ A ++ x :: B ↔ b = x ∨ b ∈ A ++ B := by
  simp only [List.mem_append, List.mem_cons]
  tauto

theorem nodup_append_cons_drop {α : Type} (A : List α) (x : α) (B : List α)
    (h : (A ++ x :: B).Nodup) : (A ++ B).Nodup :=
  List.Nodup.sublist (List.Sublist.append_left (List.sublist_cons_self x B) A) h

theorem just_in_deepSub_mem (ls : Lines) (i2 : Nat) (s : Subproof) (a : Nat)
    (hm : (i2, s) ∈ subEntries ls) (hj : s.2.hasJustDeep a = true) :
    DepRef.inl (PJRef.just a) ∈ allRefsL ls :=
  mem_allRefs_of_deepSub ls i2 s _ (subEntry_deepSubs ls i2 s hm)
    (List.mem_append_right _ (hasJust_mem_allRefsL s.2 a hj))

/-- The scope walk agrees with the claim's formulation: with distinct
references, the step `a` may cite exactly what some descent through its
chain of enclosing subproofs passes before its continuation entry. -/
theorem scope_iff_descent :
    ∀ (ls : Lines) (ps : List (Nat × Expr)) (a : Nat) (l : List DepRef)
      (b : DepRef),
      (premRefs ps ++ allRefsL ls).Nodup →
      scopeL ls a = some l →
      (b ∈ premRefs ps ++ l ↔
        ∃ p, DescentTo (ps, ls) a p ∧ citesAlong b (ps, ls) p a) := by
  intro ls
  induction ls with
  | nil =>
    intro ps a l b hwf h
    exact Option.noConfusion h
  | consJ i j r ihr =>
    intro ps a l b hwf h
    simp only [scopeL] at h
    by_cases hia : i = a
    · rw [if_pos hia] at h
      obtain rfl : ([] : List DepRef) = l := Option.some.inj h
      subst hia
      constructor
      · intro hb
        rw [List.append_nil] at hb
        refine ⟨[], DescentTo.here _ _ ?_, ?_⟩
        · simp [entriesL]
        · exact (precedesList_append_cons b (DepRef.inl (PJRef.just i))
            (premRefs ps) (entriesL r) (not_just_mem_premRefs ps i)).mpr hb
      · rintro ⟨p, hd, hc⟩
        rw [List.append_nil]
        cases hd with
        | here _ _ hm =>
          exact (precedesList_append_cons b (DepRef.inl (PJRef.just i))
            (premRefs ps) (entriesL r) (not_just_mem_premRefs ps i)).mp hc
        | there _ _ i2 s p2 hm hd2 =>
          exfalso
          have hmem : DepRef.inl (PJRef.just i) ∈ allRefsL r :=
            just_in_deepSub_mem r i2 s i hm (descent_hasJust s i p2 hd2)
          have hnd : (DepRef.inl (PJRef.just i) :: allRefsL r).Nodup :=
            List.Nodup.of_append_right hwf
          exact (List.nodup_cons.mp hnd).1 hmem
    · rw [if_neg hia] at h
      cases hr : scopeL r a with
      | none => rw [hr] at h; exact Option.noConfusion h
      | some l2 =>
        rw [hr] at h
        obtain rfl : DepRef.inl (PJRef.just i) :: l2 = l := Option.some.inj h
        have hwf2 : (premRefs ps ++ allRefsL r).Nodup :=
          nodup_append_cons_drop (premRefs ps) (DepRef.inl (PJRef.just i))
            (allRefsL r) hwf
        have hIH := ihr ps a l2 b hwf2 hr
        constructor
        · intro hb
          rcases (mem_append_cons_iff b (DepRef.inl (PJRef.just i))
              (premRefs ps) l2).mp hb with hb1 | hb2
          · obtain ⟨p, hp⟩ := descent_exists r a l2 hr ps
            exact ⟨p, descent_consJ_intro ps i j r a p hp,
              (cites_consJ ps i j r a b p hp hia).mpr (Or.inl hb1)⟩
          · obtain ⟨p, hd, hc⟩ := hIH.mp hb2
            exact ⟨p, descent_consJ_intro ps i j r a p hd,
              (cites_consJ ps i j r a b p hd hia).mpr (Or.inr hc)⟩
        · rintro ⟨p, hd, hc⟩
          have hd2 := descent_consJ_elim ps i j r a p hia hd
          rcases (cites_consJ ps i j r a b p hd2 hia).mp hc with hb1 | hb2
          · exact (mem_append_cons_iff b (DepRef.inl (PJRef.just i))
              (premRefs ps) l2).mpr (Or.inl hb1)
          · exact (mem_append_cons_iff b (DepRef.inl (PJRef.just i))
              (premRefs ps) l2).mpr (Or.inr (hIH.mpr ⟨p, hd2, hb2⟩))
  | consS i0 ps0 b0 r ihb ihr =>
    intro ps a l b hwf h
    simp only [scopeL] at h
    have hnd0 : (DepRef.inr i0 ::
        ((premRefs ps0 ++ allRefsL b0) ++ allRefsL r)).Nodup :=
      List.Nodup.of_append_right hwf
    obtain ⟨hi0notmem, hndT⟩ := List.nodup_cons.mp hnd0
    have hndB : (premRefs ps0 ++ allRefsL b0).Nodup :=
      List.Nodup.of_append_left hndT
    have hdisjT : (premRefs ps0 ++ allRefsL b0).Disjoint (allRefsL r) :=
      List.disjoint_of_nodup_append hndT
    cases hb0 : scopeL b0 a with
    | some l0 =>
      rw [hb0] at h
      obtain rfl : premRefs ps0 ++ l0 = l := Option.some.inj h
      have hjb0 : b0.hasJustDeep a = true := by
        cases hj : b0.hasJustDeep a with
        | true => rfl
        | false =>
          rw [(scopeL_none_iff b0 a).mpr hj] at hb0
          exact Option.noConfusion hb0
      have hIH := ihb ps0 a l0 b hndB hb0
      constructor
      · intro hb
        rcases List.mem_append.mp hb with hb1 | hb2
        · obtain ⟨p2, hp2⟩ := descent_exists b0 a l0 hb0 ps0
          exact ⟨_, descent_consS_head ps i0 ps0 b0 r a p2 hp2,
            (cites_consS_head ps i0 ps0 b0 r a b p2).mpr (Or.inl hb1)⟩
        · obtain ⟨p2, hd2, hc2⟩ := hIH.mp hb2
          exact ⟨_, descent_consS_head ps i0 ps0 b0 r a p2 hd2,
            (cites_consS_head ps i0 ps0 b0 r a b p2).mpr (Or.inr hc2)⟩
      · rintro ⟨p, hd, hc⟩
        cases hd with
        | here _ _ hm =>
          exfalso
          rcases List.mem_cons.mp hm with h1 | h1
          · exact DepRef.noConfusion h1
          · have hmb : DepRef.inl (PJRef.just a) ∈ allRefsL b0 :=
              hasJust_mem_allRefsL b0 a hjb0
            have hmr : DepRef.inl (PJRef.just a) ∈ allRefsL r :=
              (entriesL_sublist_allRefsL r).subset h1
            exact hdisjT (List.mem_append_right _ hmb) hmr
        | there _ _ i2 s p2 hm hd2 =>
          rcases List.mem_cons.mp hm with h1 | h1
          · have hs : s = (ps0, b0) := (Prod.mk.inj h1).2
            have hi2 : i2 = i0 := (Prod.mk.inj h1).1
            subst hs
            subst hi2
            rcases (cites_consS_head ps i2 ps0 b0 r a b p2).mp hc with hb1 | hb2
            · exact List.mem_append_left _ hb1
            · exact List.mem_append_right _ (hIH.mpr ⟨p2, hd2, hb2⟩)
          · exfalso
            have hmr : DepRef.inl (PJRef.just a) ∈ allRefsL r :=
              just_in_deepSub_mem r i2 s a h1 (descent_hasJust s a p2 hd2)
            have hmb : DepRef.inl (PJRef.just a) ∈ allRefsL b0 :=
              hasJust_mem_allRefsL b0 a hjb0
            exact hdisjT (List.mem_append_right _ hmb) hmr
    | none =>
      rw [hb0] at h
      cases hr : scopeL r a with
      | none => rw [hr] at h; exact Option.noConfusion h
      | some l2 =>
        rw [hr] at h
        obtain rfl : DepRef.inr i0 :: l2 = l := Option.some.inj h
        have hjb0 : b0.hasJustDeep a = false := (scopeL_none_iff b0 a).mp hb0
        have hwfR : (premRefs ps ++ allRefsL r).Nodup := by
          refine List.Nodup.sublist ?_ hwf
          refine List.Sublist.append_left ?_ (premRefs ps)
          exact List.Sublist.trans (List.sublist_append_right _ _)
            (List.sublist_cons_self _ _)
        have hIH := ihr ps a l2 b hwfR hr
        have hdesc : ∀ p, DescentTo (ps, Lines.consS i0 ps0 b0 r) a p →
            DescentTo (ps, r) a p := by
          intro p hd
          cases hd with
          | here _ _ hm =>
            rcases List.mem_cons.mp hm with h1 | h1
            · exact absurd h1 (by simp)
            · exact DescentTo.here _ _ h1
          | there _ _ i2 s p2 hm hd2 =>
            rcases List.mem_cons.mp hm with h1 | h1
            · exfalso
              have hs : s = (ps0, b0) := (Prod.mk.inj h1).2
              have hj2 : s.2.hasJustDeep a = true := descent_hasJust s a p2 hd2
              have hb2 : b0.hasJustDeep a = true := by
                rw [hs] at hj2
                exact hj2
              rw [hb2] at hjb0
              exact Bool.noConfusion hjb0
            · exact DescentTo.there _ _ i2 s p2 h1 hd2
        have hni : ∀ p, DescentTo (ps, r) a p →
            ∀ i2 s p2, p = (i2, s) :: p2 → i2 ≠ i0 := by
          intro p hd i2 s p2 hp hi2
          subst hp
          subst hi2
          cases hd with
          | there _ _ _ _ _ hm _ =>
            have hment : DepRef.inr i2 ∈ entriesL r :=
              subEntry_mem_entries r i2 s hm
            exact hi0notmem (List.mem_append_right _
              ((entriesL_sublist_allRefsL r).subset hment))
        constructor
        · intro hb
          rcases (mem_append_cons_iff b (DepRef.inr i0)
              (premRefs ps) l2).mp hb with hb1 | hb2
          · obtain ⟨p, hp⟩ := descent_exists r a l2 hr ps
            exact ⟨p, descent_consS_tail ps i0 ps0 b0 r a p hp,
              (cites_consS_tail ps i0 ps0 b0 r a b p hp (hni p hp)).mpr
                (Or.inl hb1)⟩
          · obtain ⟨p, hd, hc⟩ := hIH.mp hb2
            exact ⟨p, descent_consS_tail ps i0 ps0 b0 r a p hd,
              (cites_consS_tail ps i0 ps0 b0 r a b p hd (hni p hd)).mpr
                (Or.inr hc)⟩
        · rintro ⟨p, hd, hc⟩
          have hd2 := hdesc p hd
          rcases (cites_consS_tail ps i0 ps0 b0 r a b p hd2
              (hni p hd2)).mp hc with hb1 | hb2
          · exact (mem_append_cons_iff b (DepRef.inr i0)
              (premRefs ps) l2).mpr (Or.inl hb1)
          · exact (mem_append_cons_iff b (DepRef.inr i0)
              (premRefs ps) l2).mpr (Or.inr (hIH.mpr ⟨p, hd2, hb2⟩))

/-- With distinct references, nothing in the scope of `a` lies inside a
deep subproof that does not contain `a` — in particular inside a sibling
subproof. -/
theorem scope_excludes_unentered_sub :
    ∀ (ls : Lines), (allRefsL ls).Nodup →
      ∀ (a : Nat) (l : List DepRef), scopeL ls a = some l →
      ∀ (i : Nat) (s : Subproof), (i, s) ∈ deepSubs ls →
      s.2.hasJustDeep a = false →
      ∀ x ∈ l, x ∉ allRefs s := by
  intro ls
  induction ls with
  | nil =>
    intro _ a l h
    exact Option.noConfusion h
  | consJ i0 j r ihr =>
    intro hnd a l h i s hmem hja x hx
    simp only [scopeL] at h
    by_cases hia : i0 = a
    · rw [if_pos hia] at h
      obtain rfl : ([] : List DepRef) = l := Option.some.inj h
      simp at hx
    · rw [if_neg hia] at h
      cases hr : scopeL r a with
      | none => rw [hr] at h; exact Option.noConfusion h
      | some l2 =>
        rw [hr] at h
        obtain rfl : DepRef.inl (PJRef.just i0) :: l2 = l := Option.some.inj h
        obtain ⟨hhead, hndr⟩ := List.nodup_cons.mp hnd
        rcases List.mem_cons.mp hx with hx1 | hx2
        · subst hx1
          intro hxin
          exact hhead (mem_allRefs_of_deepSub r i s _ hmem hxin)
        · exact ihr hndr a l2 hr i s hmem hja x hx2
  | consS i0 ps0 b0 r ihb ihr =>
    intro hnd a l h i s hmem hja x hx
    simp only [scopeL] at h
    obtain ⟨hi0notmem, hndT⟩ := List.nodup_cons.mp hnd
    have hndB : (premRefs ps0 ++ allRefsL b0).Nodup :=
      List.Nodup.of_append_left hndT
    have hndB0 : (allRefsL b0).Nodup := List.Nodup.of_append_right hndB
    have hndR : (allRefsL r).Nodup := List.Nodup.of_append_right hndT
    have hdisjT : (premRefs ps0 ++ allRefsL b0).Disjoint (allRefsL r) :=
      List.disjoint_of_nodup_append hndT
    have hdisjB : (premRefs ps0).Disjoint (allRefsL b0) :=
      List.disjoint_of_nodup_append hndB
    cases hb0 : scopeL b0 a with
    | some l0 =>
      rw [hb0] at h
      obtain rfl : premRefs ps0 ++ l0 = l := Option.some.inj h
      rcases List.mem_cons.mp hmem with h1 | h1
      · exfalso
        have hjb0 : b0.hasJustDeep a = true := by
          cases hj : b0.hasJustDeep a with
          | true => rfl
          | false =>
            rw [(scopeL_none_iff b0 a).mpr hj] at hb0
            exact Option.noConfusion hb0
        have hs : s = (ps0, b0) := (Prod.mk.inj h1).2
        have hf : b0.hasJustDeep a = false := by
          rw [hs] at hja
          exact hja
        rw [hjb0] at hf
        exact Bool.noConfusion hf
      · rcases List.mem_append.mp h1 with hdb | hdr
        · rcases List.mem_append.mp hx with hx1 | hx2
          · intro hxin
            exact hdisjB hx1 (mem_allRefs_of_deepSub b0 i s x hdb hxin)
          · exact ihb hndB0 a l0 hb0 i s hdb hja x hx2
        · intro hxin
          have hxr : x ∈ allRefsL r :=
            mem_allRefs_of_deepSub r i s x hdr hxin
          have hxl : x ∈ premRefs ps0 ++ allRefsL b0 := by
            rcases List.mem_append.mp hx with hx1 | hx2
            · exact List.mem_append_left _ hx1
            · exact List.mem_append_right _
                (scope_mem_allRefsL b0 a l0 x hb0 hx2)
          exact hdisjT hxl hxr
    | none =>
      rw [hb0] at h
      cases hr : scopeL r a with
      | none => rw [hr] at h; exact Option.noConfusion h
      | some l2 =>
        rw [hr] at h
        obtain rfl : DepRef.inr i0 :: l2 = l := Option.some.inj h
        rcases List.mem_cons.mp hx with hx1 | hx2
        · subst hx1
          intro hxin
          have hmemT : DepRef.inr i0 ∈
              (premRefs ps0 ++ allRefsL b0) ++ allRefsL r := by
            rcases List.mem_cons.mp hmem with h1 | h1
            · have hs : s = (ps0, b0) := (Prod.mk.inj h1).2
              rw [hs] at hxin
              exact List.mem_append_left _ hxin
            · rcases List.mem_append.mp h1 with hdb | hdr
              · exact List.mem_append_left _ (List.mem_append_right _
                  (mem_allRefs_of_deepSub b0 i s _ hdb hxin))
              · exact List.mem_append_right _
                  (mem_allRefs_of_deepSub r i s _ hdr hxin)
          exact hi0notmem hmemT
        · rcases List.mem_cons.mp hmem with h1 | h1
          · have hs : s = (ps0, b0) := (Prod.mk.inj h1).2
            intro hxin
            rw [hs] at hxin
            exact hdisjT hxin (scope_mem_allRefsL r a l2 x hr hx2)
          · rcases List.mem_append.mp h1 with hdb | hdr
            · intro hxin
              exact hdisjT
                (List.mem_append_right _
                  (mem_allRefs_of_deepSub b0 i s x hdb hxin))
                (scope_mem_allRefsL r a l2 x hr hx2)
            · exact ihr hndR a l2 hr i s hdr hja x hx2

/-- C2: with every reference unique in the proof tree, `can_reference_dep`
accepts `b` as a dependency of the justified step `a` exactly when a
descent through the chain of subproofs enclosing `a` passes `b` before its
continuation entry (`a`'s own line at the innermost level, the enclosing
nested subproof's position higher up) at one of its levels, in document
order with premises first; and a reference inside a deep subproof the
descent never enters — in particular inside a sibling subproof — is never
accepted. -/
theorem c2_can_reference_dep_scope_chain (pf : Pf) (a : Nat) (b : DepRef)
    (hwf : WFrefs pf) :
    (canReferenceDep pf a b = true ↔
      ∃ p, DescentTo pf.top a p ∧ citesAlong b pf.top p a) ∧
    (∀ (i : Nat) (s : Subproof), (i, s) ∈ deepSubs pf.top.2 →
      s.2.hasJustDeep a = false → b ∈ allRefs s →
      canReferenceDep pf a b = false) := by
  have hwf2 : (premRefs pf.top.1 ++ allRefsL pf.top.2).Nodup := hwf
  constructor
  · cases hsc : scopeL pf.top.2 a with
    | none =>
      have hcf : canReferenceDep pf a b = false := by
        unfold canReferenceDep scopeSub
        rw [hsc]
        rfl
      rw [hcf]
      constructor
      · intro hcontra
        exact Bool.noConfusion hcontra
      · rintro ⟨p, hd, -⟩
        have hj : pf.top.2.hasJustDeep a = true := descent_hasJust _ a p hd
        have hjf := (scopeL_none_iff pf.top.2 a).mp hsc
        rw [hj] at hjf
        exact Bool.noConfusion hjf
    | some l =>
      have hcr : canReferenceDep pf a b
          = decide (b ∈ premRefs pf.top.1 ++ l) := by
        unfold canReferenceDep scopeSub
        rw [hsc]
        rfl
      rw [hcr]
      have hiff := scope_iff_descent pf.top.2 pf.top.1 a l b hwf2 hsc
      constructor
      · intro hb
        obtain ⟨p, hd, hc⟩ := hiff.mp (of_decide_eq_true hb)
        exact ⟨p, hd, hc⟩
      · rintro ⟨p, hd, hc⟩
        exact decide_eq_true (hiff.mpr ⟨p, hd, hc⟩)
  · intro i s hmem hja hbin
    cases hsc : scopeL pf.top.2 a with
    | none =>
      unfold canReferenceDep scopeSub
      rw [hsc]
      rfl
    | some l =>
      have hcr : canReferenceDep pf a b
          = decide (b ∈ premRefs pf.top.1 ++ l) := by
        unfold canReferenceDep scopeSub
        rw [hsc]
        rfl
      rw [hcr]
      refine decide_eq_false ?_
      intro hbmem
      rcases List.mem_append.mp hbmem with h1 | h2
      · have hb2 : b ∈ allRefsL pf.top.2 :=
          mem_allRefs_of_deepSub pf.top.2 i s b hmem hbin
        exact (List.disjoint_of_nodup_append hwf2) h1 hb2
      · exact scope_excludes_unentered_sub pf.top.2
          (List.Nodup.of_append_right hwf2) a l hsc i s hmem hja b h2 hbin

/-- Witness for C2 at the nested proof `pfN`: its references are distinct,
and the equivalence and sibling-exclusion apply to step 4 citing the root
premise 0. -/
theorem c2_witness :
    WFrefs pfN ∧
    ((canReferenceDep pfN 4 (DepRef.inl (PJRef.prem 0)) = true ↔
      ∃ p, DescentTo pfN.top 4 p ∧
        citesAlong (DepRef.inl (PJRef.prem 0)) pfN.top p 4) ∧
     (∀ (i : Nat) (s : Subproof), (i, s) ∈ deepSubs pfN.top.2 →
      s.2.hasJustDeep 4 = false →
      DepRef.inl (PJRef.prem 0) ∈ allRefs s →
      canReferenceDep pfN 4 (DepRef.inl (PJRef.prem 0)) = false)) :=
  ⟨(by decide : (allRefs pfN.top).Nodup),
   c2_can_reference_dep_scope_chain pfN 4 (DepRef.inl (PJRef.prem 0))
     (by decide : (allRefs pfN.top).Nodup)⟩

theorem map_isPrem_prem (ps : List (Nat × Expr)) :
    List.map (PJRef.isPrem ∘ fun p => PJRef.prem p.1) ps
      = List.replicate ps.length true := by
  induction ps with
  | nil => rfl
  | cons q qs ihq =>
    simp [List.replicate_succ, ihq, PJRef.isPrem, Function.comp]

theorem docPjKindsL_serializeLines (pj : List PJRef) (subs : List Nat) :
    ∀ ls : Lines,
      docPjKindsL (serializeLines pj subs ls) = (pjOrderL ls).map PJRef.isPrem := by
  intro ls
  induction ls with
  | nil => rfl
  | consJ i j r ihr =>
    simp [serializeLines, docPjKindsL, pjOrderL, ihr, PJRef.isPrem]
  | consS i ps b r ihb ihr =>
    simp [serializeLines, docPjKindsL, pjOrderL, ihb, ihr, List.map_map,
      map_isPrem_prem]

theorem docPjKinds_serialize (pf : Pf) (meta : ProofMetaData) :
    docPjKinds (serialize pf meta) = (pjOrder pf.top).map PJRef.isPrem := by
  unfold docPjKinds serialize pjOrder
  simp [docPjKindsL_serializeLines, List.map_map, map_isPrem_prem]

theorem docSubCountL_serializeLines (pj : List PJRef) (subs : List Nat) :
    ∀ ls : Lines,
      docSubCountL (serializeLines pj subs ls) = (subOrderL ls).length := by
  intro ls
  induction ls with
  | nil => rfl
  | consJ i j r ihr => simp [serializeLines, docSubCountL, subOrderL, ihr]
  | consS i ps b r ihb ihr =>
    simp [serializeLines, docSubCountL, subOrderL, ihb, ihr]

theorem indexOf_append_cons {α : Type} [DecidableEq α] :
    ∀ (A : List α) (x : α) (B : List α), (A ++ x :: B).Nodup →
      (A ++ x :: B).indexOf x = A.length := by
  intro A
  induction A with
  | nil =>
    intro x B _
    simp [List.indexOf_cons_self]
  | cons a A2 ih =>
    intro x B hnd
    have hax : a ≠ x := by
      intro he
      subst he
      exact (List.nodup_cons.mp hnd).1
        (List.mem_append_right _ (List.mem_cons_self _ _))
    rw [List.cons_append, List.indexOf_cons_ne _ hax]
    simp [ih x B (List.nodup_cons.mp hnd).2]

theorem transDep_indexOf (pj : List PJRef) (d : PJRef) (hd : d ∈ pj) :
    transDep (pj.map PJRef.isPrem) (pj.indexOf d + 1)
      = some (renamePJ (fpIx pj) (fjIx pj) d) := by
  have hg2 : pj[pj.indexOf d]? = some d := by
    rw [← List.get?_eq_getElem?]
    exact List.indexOf_get? hd
  cases d with
  | prem n => simp [transDep, hg2, renamePJ, fpIx, PJRef.isPrem]
  | just n => simp [transDep, hg2, renamePJ, fjIx, PJRef.isPrem]

theorem transSdep_indexOf (npj : Nat) (subs : List Nat) (s : Nat)
    (hs : s ∈ subs) :
    transSdep npj subs.length (subs.indexOf s + 1)
      = some (fsIx npj subs s) := by
  have hlt : subs.indexOf s < subs.length := List.indexOf_lt_length.mpr hs
  simp [transSdep, hlt, fsIx]

theorem mapOpt_map {A B C : Type} (h : A → B) (g : B → Option C) (f : A → C) :
    ∀ l : List A, (∀ a ∈ l, g (h a) = some (f a)) →
      mapOpt g (l.map h) = some (l.map f) := by
  intro l
  induction l with
  | nil => intro _; rfl
  | cons a l2 ih =>
    intro hp
    simp only [List.map_cons, mapOpt]
    rw [hp a (List.mem_cons_self a l2),
      ih (fun x hx => hp x (List.mem_cons_of_mem a hx))]

theorem numberPrems_map (pj : List PJRef) (hnd : pj.Nodup) :
    ∀ (ps : List (Nat × Expr)) (A B : List PJRef),
      pj = A ++ (ps.map (fun p => PJRef.prem p.1) ++ B) →
      numberPrems (ps.map Prod.snd) A.length
        = ps.map (fun p => (fpIx pj p.1, p.2)) := by
  intro ps
  induction ps with
  | nil => intro A B h; rfl
  | cons p ps2 ih =>
    intro A B h
    have h2 : pj = A ++ (PJRef.prem p.1
        :: (ps2.map (fun q => PJRef.prem q.1) ++ B)) := by
      rw [h]
      simp
    have hfp : fpIx pj p.1 = A.length := by
      unfold fpIx
      rw [h2]
      exact indexOf_append_cons A _ _ (h2 ▸ hnd)
    have h3 : pj = (A ++ [PJRef.prem p.1])
        ++ (ps2.map (fun q => PJRef.prem q.1) ++ B) := by
      rw [h2]
      simp
    have ht := ih (A ++ [PJRef.prem p.1]) B h3
    simp only [List.length_append, List.length_cons, List.length_nil,
      Nat.zero_add] at ht
    simp only [List.map_cons, numberPrems]
    rw [hfp, ht]

/-- The deserializer rebuilds a serialized line sequence as the renamed
original, with the counters advanced by the segment's numbered lines and
subproofs.  The segment hypotheses place `ls` at positions
`pjPre.length`/`subPre.length` of the document orders. -/
theorem deserializeLines_serializeLines (pj : List PJRef) (subs : List Nat)
    (hndpj : pj.Nodup) (hndsub : subs.Nodup) :
    ∀ (ls : Lines) (pjPre pjPost : List PJRef) (subPre subPost : List Nat),
      pj = pjPre ++ (pjOrderL ls ++ pjPost) →
      subs = subPre ++ (subOrderL ls ++ subPost) →
      Lines.depsIn ls pj subs = true →
      deserializeLines (pj.map PJRef.isPrem) pj.length subs.length
          (serializeLines pj subs ls) pjPre.length subPre.length
        = some (renameLines (fpIx pj) (fjIx pj) (fsIx pj.length subs) ls,
            pjPre.length + (pjOrderL ls).length,
            subPre.length + (subOrderL ls).length) := by
  intro ls
  induction ls with
  | nil =>
    intro pjPre pjPost subPre subPost hpj hsub hdeps
    simp [serializeLines, deserializeLines, renameLines, pjOrderL, subOrderL]
  | consJ i j r ihr =>
    intro pjPre pjPost subPre subPost hpj hsub hdeps
    simp only [pjOrderL, List.cons_append] at hpj
    simp only [subOrderL] at hsub
    simp only [Lines.depsIn, Bool.and_eq_true, List.all_eq_true] at hdeps
    have hpj3 : pj = (pjPre ++ [PJRef.just i]) ++ (pjOrderL r ++ pjPost) := by
      rw [hpj]
      simp
    have hR := ihr (pjPre ++ [PJRef.just i]) pjPost subPre subPost hpj3 hsub
      hdeps.2
    simp only [List.length_append, List.length_cons, List.length_nil,
      Nat.zero_add] at hR
    have hD : mapOpt (transDep (pj.map PJRef.isPrem))
        (j.deps.map (fun d => pj.indexOf d + 1))
        = some (j.deps.map (renamePJ (fpIx pj) (fjIx pj))) :=
      mapOpt_map _ _ _ j.deps
        (fun d hd => transDep_indexOf pj d (by simpa using hdeps.1.1 d hd))
    have hS : mapOpt (transSdep pj.length subs.length)
        (j.sdeps.map (fun d => subs.indexOf d + 1))
        = some (j.sdeps.map (fsIx pj.length subs)) :=
      mapOpt_map _ _ _ j.sdeps
        (fun s hs => transSdep_indexOf pj.length subs s
          (by simpa using hdeps.1.2 s hs))
    have hfj : fjIx pj i = pjPre.length := by
      unfold fjIx
      rw [hpj]
      exact indexOf_append_cons pjPre _ _ (hpj ▸ hndpj)
    simp only [serializeLines, deserializeLines, hD, hS, hR, renameLines, hfj,
      pjOrderL, subOrderL, List.length_cons]
    refine congrArg some ?_
    refine congrArg₂ Prod.mk rfl ?_
    refine congrArg₂ Prod.mk ?_ rfl
    omega
  | consS i ps b r ihb ihr =>
    intro pjPre pjPost subPre subPost hpj hsub hdeps
    simp only [pjOrderL] at hpj
    simp only [subOrderL, List.cons_append] at hsub
    simp only [Lines.depsIn, Bool.and_eq_true] at hdeps
    have hpjb : pj = (pjPre ++ ps.map (fun p => PJRef.prem p.1))
        ++ (pjOrderL b ++ (pjOrderL r ++ pjPost)) := by
      rw [hpj]
      simp
    have hpjr : pj = ((pjPre ++ ps.map (fun p => PJRef.prem p.1)) ++ pjOrderL b)
        ++ (pjOrderL r ++ pjPost) := by
      rw [hpj]
      simp
    have hpjprem : pj = pjPre ++ (ps.map (fun p => PJRef.prem p.1)
        ++ (pjOrderL b ++ (pjOrderL r ++ pjPost))) := by
      rw [hpj]
      simp
    have hsub2 : subs = subPre
        ++ (i :: (subOrderL b ++ (subOrderL r ++ subPost))) := by
      rw [hsub]
      simp
    have hsubb : subs = (subPre ++ [i])
        ++ (subOrderL b ++ (subOrderL r ++ subPost)) := by
      rw [hsub]
      simp
    have hsubr : subs = ((subPre ++ [i]) ++ subOrderL b)
        ++ (subOrderL r ++ subPost) := by
      rw [hsub]
      simp
    have hB := ihb (pjPre ++ ps.map (fun p => PJRef.prem p.1))
      (pjOrderL r ++ pjPost) (subPre ++ [i]) (subOrderL r ++ subPost)
      hpjb hsubb hdeps.1
    have hR := ihr ((pjPre ++ ps.map (fun p => PJRef.prem p.1)) ++ pjOrderL b)
      pjPost ((subPre ++ [i]) ++ subOrderL b) subPost hpjr hsubr hdeps.2
    simp only [List.length_append, List.length_map, List.length_cons,
      List.length_nil, Nat.zero_add] at hB hR
    have hfs : fsIx pj.length subs i = pj.length + subPre.length := by
      unfold fsIx
      rw [hsub2]
      rw [indexOf_append_cons subPre _ _ (hsub2 ▸ hndsub)]
    have hnp : numberPrems (List.map Prod.snd ps) pjPre.length
        = ps.map (fun p => (fpIx pj p.1, p.2)) :=
      numberPrems_map pj hndpj ps pjPre _ hpjprem
    simp only [serializeLines, deserializeLines, List.length_map, hB, hR,
      renameLines, hnp, hfs, pjOrderL, subOrderL, List.length_append,
      List.length_cons]
    refine congrArg some ?_
    refine congrArg₂ Prod.mk rfl ?_
    refine congrArg₂ Prod.mk ?_ ?_
    · omega
    · omega

/-- C3: serializing a proof whose document orders carry no duplicate
references and whose dependencies all cite entities of the tree, then
deserializing the produced document, yields exactly the original proof
with every reference renamed by its 0-based document position (subproofs
numbered after the lines) — the same tree shape, the same rule and
conclusion on every justified step, and the image dependency sets, while
the reference identities themselves change. -/
theorem c3_serialize_deserialize_roundtrip (pf : Pf) (meta : ProofMetaData)
    (hndpj : (pjOrder pf.top).Nodup) (hndsub : (subOrderL pf.top.2).Nodup)
    (hdeps : Lines.depsIn pf.top.2 (pjOrder pf.top) (subOrderL pf.top.2)
      = true) :
    deserialize (serialize pf meta)
      = some ({ top := renameSub (fpIx (pjOrder pf.top))
                  (fjIx (pjOrder pf.top))
                  (fsIx (pjOrder pf.top).length (subOrderL pf.top.2)) pf.top,
                next := (pjOrder pf.top).length + (subOrderL pf.top.2).length },
              meta) := by
  have hk : docPjKinds (serialize pf meta)
      = (pjOrder pf.top).map PJRef.isPrem := docPjKinds_serialize pf meta
  have hlines : (serialize pf meta).lines
      = serializeLines (pjOrder pf.top) (subOrderL pf.top.2) pf.top.2 := rfl
  have hprems : (serialize pf meta).prems = pf.top.1.map Prod.snd := rfl
  have hmeta : (serialize pf meta).meta = meta := rfl
  have hmain := deserializeLines_serializeLines (pjOrder pf.top)
    (subOrderL pf.top.2) hndpj hndsub pf.top.2
    (pf.top.1.map (fun p => PJRef.prem p.1)) [] [] []
    (by simp [pjOrder]) (by simp) hdeps
  simp only [List.length_map, List.length_nil, Nat.zero_add,
    List.append_nil] at hmain
  have hnp : numberPrems (pf.top.1.map Prod.snd) 0
      = pf.top.1.map (fun p => (fpIx (pjOrder pf.top) p.1, p.2)) := by
    simpa using numberPrems_map (pjOrder pf.top) hndpj pf.top.1 []
      (pjOrderL pf.top.2) (by simp [pjOrder])
  simp only [deserialize]
  rw [hlines, hprems, hmeta, hk, docSubCountL_serializeLines]
  simp only [List.length_map]
  rw [hmain]
  simp [renameSub, hnp]

/-- Witness for C3 at the nested proof `pfN`: its document orders are
duplicate-free, its dependencies all cite entities of the tree, and the
round trip reproduces it up to the positional renaming. -/
theorem c3_witness :
    (pjOrder pfN.top).Nodup ∧ (subOrderL pfN.top.2).Nodup ∧
    Lines.depsIn pfN.top.2 (pjOrder pfN.top) (subOrderL pfN.top.2) = true ∧
    deserialize (serialize pfN metaW)
      = some ({ top := renameSub (fpIx (pjOrder pfN.top))
                  (fjIx (pjOrder pfN.top))
                  (fsIx (pjOrder pfN.top).length (subOrderL pfN.top.2))
                  pfN.top,
                next := (pjOrder pfN.top).length
                  + (subOrderL pfN.top.2).length },
              metaW) :=
  ⟨by decide, by decide, by decide,
   c3_serialize_deserialize_roundtrip pfN metaW (by decide) (by decide)
     (by decide)⟩

end Aris
